import Mathlib

set_option maxHeartbeats 1000000

/-! Verification of the Sudoku solver core (src/wasm/src/solver.rs): branch
selection, the backtracking solvers, unsolvability pruning, the bounded
contradiction search and hint deduction.  The board, candidate-set, matching
and cancellation collaborators are not part of the given sources and are
modelled from the specification's interface contracts; every such definition
says so in its doc comment. -/

/-- Position on the board: `(x, y)` = (column, row). -/
abbrev Pos := Nat × Nat

/-- Modelled from the spec: candidate sets ("Flags"; src/wasm/src/flags.rs is
missing).  A candidate set is kept as its ascending list of digits, so list
conversion iterates in ascending digit order as the determinism clause of the
spec requires. -/
abbrev Flags := List Nat

/-- Modelled from the spec: cardinality of a candidate set. -/
def Flags.size (f : Flags) : Nat := f.length

/-- Modelled from the spec: conversion of a candidate set to an explicit list. -/
def Flags.to_vec (f : Flags) : List Nat := f

/-- Modelled from the spec: conversion of an explicit list to a candidate set. -/
def Flags.from_vec (v : List Nat) : Flags := v

/-- Modelled from the spec: set complement relative to the digit range
`[1, n]`. -/
def Flags.inverse (f : Flags) (n : Nat) : Flags :=
  ((List.range n).map (· + 1)).filter (fun d => !f.contains d)

/-- Rust's `Iterator::min_by` under a total comparator given by a natural
key: the first element of minimal key is returned, because a later element
replaces the accumulator only when strictly smaller. -/
def rust_min_by {α : Type} (key : α → Nat) : List α → Option α
  | [] => none
  | x :: xs => some (xs.foldl (fun m y => if key y < key m then y else m) x)

/-- Stable insertion, auxiliary to `sort_by_key`. -/
def insert_sorted {α : Type} (key : α → Nat) (x : α) : List α → List α
  | [] => [x]
  | y :: ys => if key x ≤ key y then x :: y :: ys else y :: insert_sorted key x ys

/-- Stable sort by a natural-number key, modelling itertools `sorted_by`
(a stable sort). -/
def sort_by_key {α : Type} (key : α → Nat) (l : List α) : List α :=
  l.foldr (insert_sorted key) []

/-- Modelled from the spec: recursive system-of-distinct-representatives
search backing the bipartite perfect-matching oracle
(src/wasm/src/matching.rs is missing).  `taken` holds the digits already
assigned to earlier cells of the unit. -/
def sdr_exists : List Flags → List Nat → Bool
  | [], _ => true
  | f :: fs, taken => f.any (fun d => !taken.contains d && sdr_exists fs (d :: taken))

/-- Modelled from the spec: `has_perfect_matching` decides whether every cell
of a unit can receive a distinct digit from its candidate set (a Hall-style
feasibility test). -/
def has_perfect_matching (fs : List Flags) : Bool := sdr_exists fs []

/-- Modelled from the spec: the board (src/wasm/src/sudoku.rs is missing).
A board with `box_size`-sided boxes has side `box_size ^ 2`; `cells` stores
the grid row-major, 0 marking an empty cell and 1..side a placed digit.
The abort lock is modelled by the boolean value it shows for the whole call,
since the embedding is of single-invocation behaviour. -/
structure Sudoku where
  box_size : Nat
  cells : List Nat
deriving DecidableEq

namespace Sudoku

/-- Side length of the board: `box_size` squared. -/
def board_size (s : Sudoku) : Nat := s.box_size * s.box_size

/-- Row-major index of a position. -/
def idx (s : Sudoku) (p : Pos) : Nat := p.2 * s.board_size + p.1

/-- Modelled from the spec: value of a cell, 0 when empty. -/
def get (s : Sudoku) (p : Pos) : Nat := s.cells.getD (s.idx p) 0

/-- Modelled from the spec: `set(position, digit)` returns a new board
snapshot. -/
def set (s : Sudoku) (p : Pos) (d : Nat) : Sudoku :=
  ⟨s.box_size, s.cells.set (s.idx p) d⟩

/-- All positions of the board in row-major order. -/
def positions (s : Sudoku) : List Pos :=
  (List.range (s.board_size * s.board_size)).map
    (fun i => (i % s.board_size, i / s.board_size))

/-- Modelled from the spec: cell iteration yielding (value, position) pairs
in row-major order. -/
def iter (s : Sudoku) : List (Nat × Pos) :=
  s.positions.map (fun p => (s.get p, p))

/-- Positions of row `y`. -/
def row_positions (s : Sudoku) (y : Nat) : List Pos :=
  (List.range s.board_size).map (fun x => (x, y))

/-- Positions of column `x`. -/
def col_positions (s : Sudoku) (x : Nat) : List Pos :=
  (List.range s.board_size).map (fun y => (x, y))

/-- Positions of the box whose box coordinates are `b`. -/
def box_positions (s : Sudoku) (b : Pos) : List Pos :=
  (List.range s.box_size).flatMap
    (fun j => (List.range s.box_size).map
      (fun i => (b.1 * s.box_size + i, b.2 * s.box_size + j)))

/-- Box coordinates of the box containing a position. -/
def box_of (s : Sudoku) (p : Pos) : Pos := (p.1 / s.box_size, p.2 / s.box_size)

/-- Positions scanned when collecting the digits used around `p`: its row,
its column and its box. -/
def scan (s : Sudoku) (p : Pos) : List Pos :=
  s.row_positions p.2 ++ s.col_positions p.1 ++ s.box_positions (s.box_of p)

/-- Modelled from the spec: `used(position)` — the digits already placed in
the position's row, column and box. -/
def used (s : Sudoku) (p : Pos) : Flags :=
  ((s.scan p).map (fun q => s.get q)).filter (fun d => d != 0)

/-- Modelled from the spec: `available(position)` — the digits consistent
with the position's row, column and box so far, i.e. the complement of
`used`. -/
def available (s : Sudoku) (p : Pos) : Flags :=
  (s.used p).inverse s.board_size

/-- Modelled from the spec: candidate set contributed by a cell to the
matching test — a filled cell can only receive its own value, an empty cell
any of its available digits. -/
def avail_or_value (s : Sudoku) (p : Pos) : Flags :=
  if s.get p = 0 then s.available p else [s.get p]

/-- Modelled from the spec: per-cell candidate sets of row `y`. -/
def iter_row_avail (s : Sudoku) (y : Nat) : List Flags :=
  (s.row_positions y).map (fun q => s.avail_or_value q)

/-- Modelled from the spec: per-cell candidate sets of column `x`. -/
def iter_column_avail (s : Sudoku) (x : Nat) : List Flags :=
  (s.col_positions x).map (fun q => s.avail_or_value q)

/-- Modelled from the spec: per-cell candidate sets of the box at box
coordinates `b`. -/
def iter_box_avail (s : Sudoku) (b : Pos) : List Flags :=
  (s.box_positions b).map (fun q => s.avail_or_value q)

/-- Number of empty cells; it strictly decreases along the search and serves
as recursion fuel for the solvers. -/
def emptyCount (s : Sudoku) : Nat :=
  ((s.positions).filter (fun p => s.get p == 0)).length

/-- Well-formedness from the spec's data model: the stored cell list has one
entry per grid cell. -/
def WF (s : Sudoku) : Prop := s.cells.length = s.board_size * s.board_size

end Sudoku

/-- Transcription of `is_unsolvable` (solver.rs lines 73-91). -/
def is_unsolvable (s : Sudoku) : Bool :=
  let is_field_out_of_options :=
    match rust_min_by Flags.size
        ((s.iter.filter (fun dp => dp.1 == 0)).map
          (fun dp => (s.used dp.2).inverse s.board_size)) with
    | none => false
    | some f => decide (f.size < 1)
  let row_without_solution :=
    (List.range s.board_size).any
      (fun y => !has_perfect_matching (s.iter_row_avail y))
  let column_without_solution :=
    (List.range s.board_size).any
      (fun x => !has_perfect_matching (s.iter_column_avail x))
  let box_without_solution :=
    ((List.range s.box_size).flatMap
        (fun x => (List.range s.box_size).map (fun y => (x, y)))).any
      (fun b => !has_perfect_matching (s.iter_box_avail b))
  is_field_out_of_options || row_without_solution ||
    column_without_solution || box_without_solution

/-- Transcription of `get_best_options` (solver.rs lines 28-51). -/
def get_best_options (s : Sudoku) : Option (Flags × Pos) :=
  let options :=
    (s.iter.filter (fun dp => dp.1 == 0)).map (fun dp => (s.available dp.2, dp.2))
  let min_option_pos := rust_min_by (fun fp => fp.1.size) options
  match min_option_pos with
  | some fp =>
    if fp.1.size > 1 then
      rust_min_by (fun fp => fp.1.size)
        (options.map (fun fp =>
          (Flags.from_vec ((fp.1.to_vec).filter
            (fun d => !is_unsolvable (s.set fp.2 d))), fp.2)))
    else
      min_option_pos
  | none => none

/-- Fuel-indexed transcription of `solution` (solver.rs lines 10-26).  The
fuel only discharges Lean's termination check; the search fills one empty
cell per recursive call, so `emptyCount + 1` fuel is never exhausted. -/
def solutionF (lock : Bool) : Nat → Sudoku → Option Sudoku
  | 0, _ => none
  | fuel + 1, s =>
    if lock then none
    else
      match get_best_options s with
      | none => some s
      | some fp =>
        fp.1.to_vec.foldl
          (fun prev d =>
            match prev with
            | none => solutionF lock fuel (s.set fp.2 d)
            | some r => some r)
          none

/-- `solution` (solver.rs lines 10-26). -/
def solution (s : Sudoku) (lock : Bool) : Option Sudoku :=
  solutionF lock (s.emptyCount + 1) s

/-- Fuel-indexed transcription of `solution_iter` (solver.rs lines 53-70);
the lazily produced iterator is embedded as the list of boards it yields. -/
def solution_iterF (lock : Bool) : Nat → Sudoku → List Sudoku
  | 0, _ => []
  | fuel + 1, s =>
    if lock then []
    else
      match get_best_options s with
      | none => [s]
      | some fp =>
        fp.1.to_vec.flatMap (fun d => solution_iterF lock fuel (s.set fp.2 d))

/-- `solution_iter` (solver.rs lines 53-70). -/
def solution_iter (s : Sudoku) (lock : Bool) : List Sudoku :=
  solution_iterF lock (s.emptyCount + 1) s

/-- Transcription of `contradiction` (solver.rs lines 93-116). -/
def contradiction (s : Sudoku) (level : Nat) (lock : Bool) : Bool :=
  if lock then false
  else
    match level with
    | 0 => false
    | 1 => is_unsolvable s
    | l + 2 =>
      let options :=
        sort_by_key (fun fp => fp.1.size)
          ((s.iter.filter (fun dp => dp.1 == 0)).map
            (fun dp => ((s.used dp.2).inverse s.board_size, dp.2)))
      options.any (fun fp =>
        fp.1.to_vec.all (fun d =>
          is_unsolvable (s.set fp.2 d) || contradiction (s.set fp.2 d) (l + 1) lock))

/-- Loop of `hint` (solver.rs lines 126-154): `level` ranges over
`0 ..= max_level`, carrying the monotonically filtered candidate lists.  The
first argument counts the remaining loop iterations, `max_level + 1 - level`,
so the `for` loop's exit is the 0 case. -/
def hint_go (s : Sudoku) (lock : Bool) :
    Nat → Nat → List (List Nat × Pos) → Option (Nat × Pos × Nat)
  | 0, _, _ => none
  | k + 1, level, options =>
    if lock then none
    else
      let options' :=
        options.map (fun pl =>
          (pl.1.filter (fun d => !contradiction (s.set pl.2 d) level lock), pl.2))
      match rust_min_by (fun pl => pl.1.length) options' with
      | none => none
      | some mp =>
        match mp.1 with
        | [] => none
        | [d] => some (d, mp.2, level)
        | _ => hint_go s lock k (level + 1) options'

/-- `hint` (solver.rs lines 118-156). -/
def hint (s : Sudoku) (max_level : Nat) (lock : Bool) : Option (Nat × Pos × Nat) :=
  hint_go s lock (max_level + 1) 0
    (sort_by_key (fun pl => pl.1.length)
      ((s.iter.filter (fun dp => dp.1 == 0)).map
        (fun dp => ((s.available dp.2).to_vec, dp.2))))

/-- Digits 1..board_size of a board. -/
def digitList (s : Sudoku) : List Nat := (List.range s.board_size).map (· + 1)

/-- All units of the board: its rows, its columns and its boxes. -/
def Sudoku.all_units (s : Sudoku) : List (List Pos) :=
  (List.range s.board_size).map (fun y => s.row_positions y) ++
    (List.range s.board_size).map (fun x => s.col_positions x) ++
    (List.range s.box_size).flatMap
      (fun bx => (List.range s.box_size).map (fun bj => s.box_positions (bx, bj)))

/-- A fully solved board in the spec's sense: every cell is filled and every
row, column and box contains each digit exactly once. -/
def ValidSolved (s : Sudoku) : Prop :=
  (∀ p ∈ s.positions, s.get p ≠ 0) ∧
  ∀ u ∈ s.all_units, ∀ d ∈ digitList s, (u.map (fun q => s.get q)).count d = 1

/-- Every cell filled in `b` carries the same digit in `c`. -/
def FilledPreserved (b c : Sudoku) : Prop :=
  ∀ p ∈ b.positions, b.get p ≠ 0 → c.get p = b.get p

/-- A solution of `b`: a board of the same shape agreeing with `b` on all its
filled cells that is fully solved. -/
def IsSolutionOf (b c : Sudoku) : Prop :=
  c.box_size = b.box_size ∧ c.cells.length = b.cells.length ∧
    FilledPreserved b c ∧ ValidSolved c

/-- Filled cells are pairwise distinct inside every unit. -/
def Consistent (s : Sudoku) : Prop :=
  ∀ u ∈ s.all_units, ∀ p ∈ u, ∀ q ∈ u,
    p ≠ q → s.get p ≠ 0 → s.get q ≠ 0 → s.get p ≠ s.get q

/-- Filled cells hold digits inside the board's digit range. -/
def InRange (s : Sudoku) : Prop :=
  ∀ p ∈ s.positions, s.get p ≠ 0 → s.get p ∈ digitList s

instance (s : Sudoku) : Decidable s.WF := by
  unfold Sudoku.WF
  infer_instance

instance (s : Sudoku) : Decidable (ValidSolved s) := by
  unfold ValidSolved
  infer_instance

instance (b c : Sudoku) : Decidable (FilledPreserved b c) := by
  unfold FilledPreserved
  infer_instance

instance (b c : Sudoku) : Decidable (IsSolutionOf b c) := by
  unfold IsSolutionOf
  infer_instance

instance (s : Sudoku) : Decidable (Consistent s) := by
  unfold Consistent
  infer_instance

instance (s : Sudoku) : Decidable (InRange s) := by
  unfold InRange
  infer_instance

/-- Board of the repository's `trivial_solution` test (4×4). -/
def t4 : Sudoku := ⟨2, [0,0,0,3, 3,0,0,2, 2,0,0,1, 1,0,0,0]⟩

/-- Board whose first minimal cell (0,2) is a raw singleton {4} although
placing that 4 exhausts cell (1,2); further singletons {4} sit in row 3. -/
def b4 : Sudoku := ⟨2, [0,0,0,3, 0,0,0,0, 0,0,3,0, 1,2,0,0]⟩

/-- Inconsistent board (two 2s in row 0, column 0 and the top-left box) with a
single empty cell at (3,3). -/
def b7 : Sudoku := ⟨2, [2,2,3,4, 3,4,1,2, 2,1,4,3, 4,3,2,0]⟩

/-- The full board the search reaches from `b7`; it keeps the duplicated 2s. -/
def s7 : Sudoku := ⟨2, [2,2,3,4, 3,4,1,2, 2,1,4,3, 4,3,2,1]⟩

/-- Board whose cell (3,0) is empty but candidate-exhausted. -/
def b2 : Sudoku := ⟨2, [1,2,3,0, 0,0,0,4, 0,0,0,0, 0,0,0,0]⟩

/-- The empty 1×1 board. -/
def s1 : Sudoku := ⟨1, [0]⟩

/-- The solved 1×1 board. -/
def s1sol : Sudoku := ⟨1, [1]⟩

theorem rust_min_by_aux {α : Type} (key : α → Nat) :
    ∀ (xs : List α) (x : α),
      ((xs.foldl (fun m y => if key y < key m then y else m) x) = x ∨
        (xs.foldl (fun m y => if key y < key m then y else m) x) ∈ xs) ∧
      key (xs.foldl (fun m y => if key y < key m then y else m) x) ≤ key x ∧
      ∀ a ∈ xs, key (xs.foldl (fun m y => if key y < key m then y else m) x) ≤ key a := by
  intro xs
  induction xs with
  | nil => intro x; simp
  | cons y ys ih =>
    intro x
    simp only [List.foldl_cons]
    obtain ⟨hmem, hle, hall⟩ := ih (if key y < key x then y else x)
    refine ⟨?_, ?_, ?_⟩
    · rcases hmem with h | h
      · by_cases hxy : key y < key x
        · right; rw [h, if_pos hxy]; exact List.mem_cons_self y ys
        · left; rw [h, if_neg hxy]
      · right; exact List.mem_cons_of_mem _ h
    · refine le_trans hle ?_
      by_cases hxy : key y < key x
      · rw [if_pos hxy]; omega
      · rw [if_neg hxy]
    · intro a ha
      rcases List.mem_cons.mp ha with rfl | ha
      · refine le_trans hle ?_
        by_cases hxy : key a < key x
        · rw [if_pos hxy]
        · rw [if_neg hxy]; omega
      · exact hall a ha

/-- A `rust_min_by` result is an element of the list. -/
theorem rust_min_by_mem {α : Type} {key : α → Nat} {l : List α} {m : α}
    (h : rust_min_by key l = some m) : m ∈ l := by
  cases l with
  | nil => simp [rust_min_by] at h
  | cons x xs =>
    simp only [rust_min_by, Option.some.injEq] at h
    rcases (rust_min_by_aux key xs x).1 with h1 | h1
    · rw [h] at h1; rw [h1]; exact List.mem_cons_self x xs
    · rw [h] at h1; exact List.mem_cons_of_mem _ h1

/-- A `rust_min_by` result has minimal key among the list's elements. -/
theorem rust_min_by_le {α : Type} {key : α → Nat} {l : List α} {m : α}
    (h : rust_min_by key l = some m) : ∀ a ∈ l, key m ≤ key a := by
  cases l with
  | nil => simp [rust_min_by] at h
  | cons x xs =>
    simp only [rust_min_by, Option.some.injEq] at h
    obtain ⟨-, hle, hall⟩ := rust_min_by_aux key xs x
    rw [h] at hle hall
    intro a ha
    rcases List.mem_cons.mp ha with rfl | ha
    · exact hle
    · exact hall a ha

/-- `rust_min_by` returns `none` exactly on the empty list. -/
theorem rust_min_by_eq_none {α : Type} (key : α → Nat) (l : List α) :
    rust_min_by key l = none ↔ l = [] := by
  cases l <;> simp [rust_min_by]

/-- Membership in a stable insertion. -/
theorem mem_insert_sorted {α : Type} (key : α → Nat) (x b : α) :
    ∀ l : List α, b ∈ insert_sorted key x l ↔ b = x ∨ b ∈ l := by
  intro l
  induction l with
  | nil => simp [insert_sorted]
  | cons y ys ih =>
    by_cases h : key x ≤ key y
    · simp [insert_sorted, h]
    · simp [insert_sorted, h, ih]
      tauto

/-- Sorting by key preserves membership. -/
theorem mem_sort_by_key {α : Type} (key : α → Nat) (l : List α) (b : α) :
    b ∈ sort_by_key key l ↔ b ∈ l := by
  induction l with
  | nil => simp [sort_by_key]
  | cons y ys ih =>
    simp only [sort_by_key, List.foldr_cons] at *
    rw [mem_insert_sorted, ih, List.mem_cons]

/-- Flipping one element of a nodup list out of a filter shortens it by one. -/
theorem length_filter_flip {α : Type} [DecidableEq α] (f g : α → Bool) :
    ∀ (l : List α) (p : α), l.Nodup → p ∈ l → f p = true → g p = false →
      (∀ q ∈ l, q ≠ p → g q = f q) →
      (l.filter g).length + 1 = (l.filter f).length := by
  intro l
  induction l with
  | nil => intro p _ hp; simp at hp
  | cons a t ih =>
    intro p hnd hp hf hg hagree
    rcases List.mem_cons.mp hp with rfl | hpt
    · have ht : t.filter g = t.filter f := by
        apply List.filter_congr
        intro q hq
        exact hagree q (List.mem_cons_of_mem _ hq)
          (fun hqp => (List.nodup_cons.mp hnd).1 (hqp ▸ hq))
      simp [List.filter_cons, hf, hg, ht]
    · have hne : a ≠ p := fun h => (List.nodup_cons.mp hnd).1 (h ▸ hpt)
      have hrec := ih p (List.nodup_cons.mp hnd).2 hpt hf hg
        (fun q hq hqp => hagree q (List.mem_cons_of_mem _ hq) hqp)
      have hga : g a = f a := hagree a (List.mem_cons_self a t) hne
      rw [List.filter_cons, List.filter_cons, hga]
      cases hfa : f a <;> simp [hfa] <;> omega

/-- Folding a first-some combinator from a `some` accumulator is constant. -/
theorem foldl_first_some {α β : Type} (step : Option β → α → Option β)
    (hsome : ∀ r d, step (some r) d = some r) :
    ∀ (ds : List α) (r : β), ds.foldl step (some r) = some r := by
  intro ds
  induction ds with
  | nil => intro r; rfl
  | cons d ds ih =>
    intro r
    rw [List.foldl_cons, hsome]
    exact ih r

/-- A first-some fold agrees with the head of the concatenated yields. -/
theorem foldl_first_some_eq_head {α β : Type} (step : Option β → α → Option β)
    (g : α → Option β) (h : α → List β) (hnone : ∀ d, step none d = g d)
    (hsome : ∀ r d, step (some r) d = some r) (hg : ∀ a, g a = (h a).head?) :
    ∀ ds : List α, ds.foldl step none = (ds.flatMap h).head? := by
  intro ds
  induction ds with
  | nil => rfl
  | cons d ds ih =>
    rw [List.foldl_cons, List.flatMap_cons, hnone d]
    cases hgd : g d with
    | none =>
      have hd : h d = [] := by
        rw [hg d] at hgd
        exact List.head?_eq_none_iff.mp hgd
      rw [hd, List.nil_append]
      exact ih
    | some r =>
      rw [foldl_first_some step hsome]
      have hd : (h d).head? = some r := by rw [← hg d]; exact hgd
      cases hhd : h d with
      | nil => rw [hhd] at hd; simp at hd
      | cons b bs =>
        rw [hhd] at hd
        simp only [List.head?_cons, Option.some.injEq] at hd
        simp [hd]

/-- A flat map over distinct keys with key-tagged outputs has no duplicates. -/
theorem nodup_flatMap_key {α β : Type} (key : β → α) :
    ∀ (l : List α) (g : α → List β), l.Nodup → (∀ a ∈ l, (g a).Nodup) →
      (∀ a ∈ l, ∀ c ∈ g a, key c = a) → (l.flatMap g).Nodup := by
  intro l
  induction l with
  | nil => intro g _ _ _; simp
  | cons a t ih =>
    intro g hnd hg hkey
    rw [List.flatMap_cons]
    apply List.Nodup.append
    · exact hg a (List.mem_cons_self a t)
    · exact ih g (List.nodup_cons.mp hnd).2
        (fun b hb => hg b (List.mem_cons_of_mem _ hb))
        (fun b hb c hc => hkey b (List.mem_cons_of_mem _ hb) c hc)
    · intro c hc hc'
      obtain ⟨b, hb, hcb⟩ := List.mem_flatMap.mp hc'
      have h1 : key c = a := hkey a (List.mem_cons_self a t) c hc
      have h2 : key c = b := hkey b (List.mem_cons_of_mem _ hb) c hcb
      exact (List.nodup_cons.mp hnd).1 (h1 ▸ h2 ▸ hb)

/-- A system of distinct representatives avoiding `taken` certifies the
matching search's success. -/
theorem sdr_exists_of_choice :
    ∀ (fs : List Flags) (ds taken : List Nat),
      List.Forall₂ (fun d f => d ∈ f) ds fs → ds.Nodup →
      (∀ d ∈ ds, d ∉ taken) → sdr_exists fs taken = true := by
  intro fs
  induction fs with
  | nil => intro ds taken _ _ _; rfl
  | cons f ft ih =>
    intro ds taken hall hnd htaken
    cases ds with
    | nil => exact absurd hall (by simp)
    | cons d dt =>
      have hdf : d ∈ f := (List.forall₂_cons.mp hall).1
      have hrest : List.Forall₂ (fun d f => d ∈ f) dt ft := (List.forall₂_cons.mp hall).2
      simp only [sdr_exists, List.any_eq_true]
      refine ⟨d, hdf, ?_⟩
      rw [Bool.and_eq_true]
      constructor
      · simpa using htaken d (List.mem_cons_self d dt)
      · apply ih dt (d :: taken) hrest (List.nodup_cons.mp hnd).2
        intro e he
        rw [List.mem_cons]
        rintro (rfl | hetaken)
        · exact (List.nodup_cons.mp hnd).1 he
        · exact htaken e (List.mem_cons_of_mem _ he) hetaken

/-- Pointwise enlarging the candidate sets preserves matching feasibility. -/
theorem sdr_exists_mono :
    ∀ (fs fs' : List Flags) (taken : List Nat),
      List.Forall₂ (fun f f' => ∀ d ∈ f, d ∈ f') fs fs' →
      sdr_exists fs taken = true → sdr_exists fs' taken = true := by
  intro fs
  induction fs with
  | nil =>
    intro fs' taken hall _
    cases hall
    rfl
  | cons f ft ih =>
    intro fs' taken hall hsdr
    cases fs' with
    | nil => exact absurd hall (by simp)
    | cons f' ft' =>
      obtain ⟨hsub, hrest⟩ := List.forall₂_cons.mp hall
      simp only [sdr_exists, List.any_eq_true, Bool.and_eq_true] at hsdr ⊢
      obtain ⟨d, hdf, hnt, hs⟩ := hsdr
      exact ⟨d, hsub d hdf, hnt, ih ft' (d :: taken) hrest hs⟩

/-- For singleton candidate sets, the matching search succeeds exactly when
the underlying values are distinct and avoid `taken`. -/
theorem sdr_exists_singleton :
    ∀ (vs taken : List Nat),
      sdr_exists (vs.map (fun v => [v])) taken = true ↔
        vs.Nodup ∧ ∀ v ∈ vs, v ∉ taken := by
  intro vs
  induction vs with
  | nil => intro taken; simp [sdr_exists]
  | cons v vt ih =>
    intro taken
    simp only [List.map_cons, sdr_exists, List.any_eq_true, Bool.and_eq_true,
      List.nodup_cons]
    constructor
    · rintro ⟨d, hd, hnt, hs⟩
      rw [List.mem_singleton] at hd
      subst hd
      obtain ⟨hvtnd, hvtav⟩ := (ih (d :: taken)).mp hs
      refine ⟨⟨?_, hvtnd⟩, ?_⟩
      · intro hvin
        exact absurd (List.mem_cons_self d taken) (hvtav d hvin)
      · intro w hw
        rcases List.mem_cons.mp hw with rfl | hw
        · simpa using hnt
        · intro hwt
          exact hvtav w hw (List.mem_cons_of_mem _ hwt)
    · rintro ⟨⟨hvnot, hvtnd⟩, hav⟩
      refine ⟨v, List.mem_singleton_self v, ?_, ?_⟩
      · simpa using hav v (List.mem_cons_self v vt)
      · apply (ih (v :: taken)).mpr
        refine ⟨hvtnd, ?_⟩
        intro w hw
        rw [List.mem_cons]
        rintro (rfl | hwt)
        · exact hvnot hw
        · exact hav w (List.mem_cons_of_mem _ hw) hwt

namespace Sudoku

@[simp]
theorem set_box_size (s : Sudoku) (p : Pos) (d : Nat) :
    (s.set p d).box_size = s.box_size := rfl

@[simp]
theorem set_board_size (s : Sudoku) (p : Pos) (d : Nat) :
    (s.set p d).board_size = s.board_size := rfl

@[simp]
theorem set_positions (s : Sudoku) (p : Pos) (d : Nat) :
    (s.set p d).positions = s.positions := rfl

@[simp]
theorem set_idx (s : Sudoku) (p q : Pos) (d : Nat) :
    (s.set p d).idx q = s.idx q := rfl

@[simp]
theorem set_cells_length (s : Sudoku) (p : Pos) (d : Nat) :
    (s.set p d).cells.length = s.cells.length := by
  simp [Sudoku.set]

theorem mem_positions {s : Sudoku} {p : Pos} :
    p ∈ s.positions ↔ p.1 < s.board_size ∧ p.2 < s.board_size := by
  constructor
  · intro hp
    obtain ⟨i, hi, hpi⟩ := List.mem_map.mp hp
    rw [List.mem_range] at hi
    have hn : 0 < s.board_size := by
      rcases Nat.eq_zero_or_pos s.board_size with h0 | h
      · rw [h0] at hi; omega
      · exact h
    rw [← hpi]
    exact ⟨Nat.mod_lt _ hn, (Nat.div_lt_iff_lt_mul hn).mpr hi⟩
  · rintro ⟨h1, h2⟩
    have hn : 0 < s.board_size := by omega
    apply List.mem_map.mpr
    refine ⟨p.1 + p.2 * s.board_size, List.mem_range.mpr ?_, ?_⟩
    · nlinarith
    · rw [Nat.add_mul_mod_self_right, Nat.mod_eq_of_lt h1,
        Nat.add_mul_div_right _ _ hn, Nat.div_eq_of_lt h1, Nat.zero_add]

theorem mul_add_div_self {m a i : Nat} (hm : 0 < m) (hi : i < m) :
    (a * m + i) / m = a := by
  rw [Nat.mul_comm a m, Nat.mul_add_div hm, Nat.div_eq_of_lt hi, Nat.add_zero]

theorem idx_inj {s : Sudoku} {p q : Pos}
    (hp1 : p.1 < s.board_size) (hq1 : q.1 < s.board_size)
    (h : s.idx p = s.idx q) : p = q := by
  have hn : 0 < s.board_size := by omega
  unfold Sudoku.idx at h
  have h2 : p.2 = q.2 := by
    have := congrArg (fun t => t / s.board_size) h
    simpa [mul_add_div_self hn hp1, mul_add_div_self hn hq1] using this
  have h1 : p.1 = q.1 := by
    rw [h2] at h
    exact Nat.add_left_cancel h
  exact Prod.ext h1 h2

theorem idx_lt {s : Sudoku} {p : Pos}
    (h1 : p.1 < s.board_size) (h2 : p.2 < s.board_size) :
    s.idx p < s.board_size * s.board_size := by
  unfold Sudoku.idx
  nlinarith

theorem positions_nodup (s : Sudoku) : s.positions.Nodup := by
  apply List.Nodup.map_on _ (List.nodup_range _)
  intro i hi j hj heq
  rw [Prod.mk.injEq] at heq
  obtain ⟨hm, hd⟩ := heq
  have hdi := Nat.div_add_mod i s.board_size
  have hdj := Nat.div_add_mod j s.board_size
  rw [hm, hd] at hdi
  omega

theorem get_set_self {s : Sudoku} {p : Pos} (hlen : s.idx p < s.cells.length)
    (d : Nat) : (s.set p d).get p = d := by
  show (s.cells.set (s.idx p) d).getD (s.idx p) 0 = d
  rw [List.getD_eq_getElem?_getD, List.getElem?_set_eq_of_lt _ hlen]
  rfl

theorem get_set_ne {s : Sudoku} {p q : Pos} (d : Nat)
    (hne : s.idx p ≠ s.idx q) : (s.set p d).get q = s.get q := by
  show (s.cells.set (s.idx p) d).getD (s.idx q) 0 = s.cells.getD (s.idx q) 0
  rw [List.getD_eq_getElem?_getD, List.getD_eq_getElem?_getD,
    List.getElem?_set_ne hne]

theorem get_set_ne_pos {s : Sudoku} {p q : Pos} (d : Nat)
    (hp : p ∈ s.positions) (hq : q ∈ s.positions) (hne : q ≠ p) :
    (s.set p d).get q = s.get q := by
  apply get_set_ne
  intro hidx
  exact hne (idx_inj (mem_positions.mp hq).1 (mem_positions.mp hp).1 hidx.symm)

theorem set_oob {s : Sudoku} {p : Pos} (d : Nat)
    (h : s.cells.length ≤ s.idx p) : s.set p d = s := by
  cases s with
  | mk b c =>
    simp only [Sudoku.set, Sudoku.mk.injEq, true_and]
    exact List.set_eq_of_length_le h

theorem emptyCount_set {s : Sudoku} {p : Pos} {d : Nat}
    (hp : p ∈ s.positions) (hemp : s.get p = 0) (hd : d ≠ 0)
    (hlen : s.idx p < s.cells.length) :
    (s.set p d).emptyCount + 1 = s.emptyCount := by
  unfold Sudoku.emptyCount
  rw [set_positions]
  apply length_filter_flip (fun q => s.get q == 0) (fun q => (s.set p d).get q == 0)
    s.positions p (positions_nodup s) hp
  · simpa using hemp
  · rw [get_set_self hlen d]; simpa using hd
  · intro q hq hqp
    rw [get_set_ne_pos d hp hq hqp]

theorem mem_row_positions {s : Sudoku} {y : Nat} {q : Pos} :
    q ∈ s.row_positions y ↔ q.2 = y ∧ q.1 < s.board_size := by
  simp only [Sudoku.row_positions, List.mem_map, List.mem_range]
  constructor
  · rintro ⟨x, hx, rfl⟩
    exact ⟨rfl, hx⟩
  · rintro ⟨h2, h1⟩
    exact ⟨q.1, h1, by rw [← h2]⟩

theorem mem_col_positions {s : Sudoku} {x : Nat} {q : Pos} :
    q ∈ s.col_positions x ↔ q.1 = x ∧ q.2 < s.board_size := by
  simp only [Sudoku.col_positions, List.mem_map, List.mem_range]
  constructor
  · rintro ⟨y, hy, rfl⟩
    exact ⟨rfl, hy⟩
  · rintro ⟨h1, h2⟩
    exact ⟨q.2, h2, by rw [← h1]⟩

theorem mem_box_positions {s : Sudoku} {b : Pos} {q : Pos} :
    q ∈ s.box_positions b ↔
      ∃ i < s.box_size, ∃ j < s.box_size,
        q = (b.1 * s.box_size + i, b.2 * s.box_size + j) := by
  simp only [Sudoku.box_positions, List.mem_flatMap, List.mem_map, List.mem_range]
  constructor
  · rintro ⟨j, hj, i, hi, rfl⟩
    exact ⟨i, hi, j, hj, rfl⟩
  · rintro ⟨i, hi, j, hj, rfl⟩
    exact ⟨j, hj, i, hi, rfl⟩

theorem box_of_mem_box_positions {s : Sudoku} {b : Pos} {q : Pos}
    (h : q ∈ s.box_positions b) : s.box_of q = b := by
  obtain ⟨i, hi, j, hj, rfl⟩ := mem_box_positions.mp h
  have hm : 0 < s.box_size := by omega
  unfold Sudoku.box_of
  simp only
  rw [mul_add_div_self hm hi, mul_add_div_self hm hj]

theorem box_positions_subset_positions {s : Sudoku} {b : Pos} {q : Pos}
    (hb1 : b.1 < s.box_size) (hb2 : b.2 < s.box_size)
    (h : q ∈ s.box_positions b) : q ∈ s.positions := by
  obtain ⟨i, hi, j, hj, rfl⟩ := mem_box_positions.mp h
  rw [mem_positions]
  unfold Sudoku.board_size
  constructor <;> simp only <;> nlinarith

theorem box_of_valid {s : Sudoku} {p : Pos} (hp : p ∈ s.positions) :
    (s.box_of p).1 < s.box_size ∧ (s.box_of p).2 < s.box_size := by
  obtain ⟨h1, h2⟩ := mem_positions.mp hp
  unfold Sudoku.board_size at h1 h2
  have hm : 0 < s.box_size := by
    rcases Nat.eq_zero_or_pos s.box_size with h0 | h
    · rw [h0] at h1; omega
    · exact h
  unfold Sudoku.box_of
  exact ⟨(Nat.div_lt_iff_lt_mul hm).mpr h1, (Nat.div_lt_iff_lt_mul hm).mpr h2⟩

theorem self_mem_box_positions {s : Sudoku} {p : Pos} (hp : p ∈ s.positions)
    (hm : 0 < s.box_size) : p ∈ s.box_positions (s.box_of p) := by
  rw [mem_box_positions]
  refine ⟨p.1 % s.box_size, Nat.mod_lt _ hm, p.2 % s.box_size, Nat.mod_lt _ hm, ?_⟩
  unfold Sudoku.box_of
  simp only
  rw [Nat.mul_comm, Nat.div_add_mod, Nat.mul_comm, Nat.div_add_mod]

theorem box_size_pos {s : Sudoku} {p : Pos} (hp : p ∈ s.positions) :
    0 < s.box_size := by
  have h := (mem_positions.mp hp).1
  unfold Sudoku.board_size at h
  rcases Nat.eq_zero_or_pos s.box_size with h0 | hpos
  · rw [h0] at h; omega
  · exact hpos

theorem self_mem_scan {s : Sudoku} {p : Pos} (hp : p ∈ s.positions) :
    p ∈ s.scan p := by
  unfold Sudoku.scan
  rw [List.mem_append]
  left
  rw [List.mem_append]
  left
  exact mem_row_positions.mpr ⟨rfl, (mem_positions.mp hp).1⟩

theorem scan_subset_positions {s : Sudoku} {p q : Pos} (hp : p ∈ s.positions)
    (hq : q ∈ s.scan p) : q ∈ s.positions := by
  obtain ⟨h1, h2⟩ := mem_positions.mp hp
  unfold Sudoku.scan at hq
  rw [List.mem_append, List.mem_append] at hq
  rcases hq with (hq | hq) | hq
  · obtain ⟨hy, hx⟩ := mem_row_positions.mp hq
    exact mem_positions.mpr ⟨hx, hy ▸ h2⟩
  · obtain ⟨hx, hy⟩ := mem_col_positions.mp hq
    exact mem_positions.mpr ⟨hx ▸ h1, hy⟩
  · obtain ⟨hb1, hb2⟩ := box_of_valid hp
    exact box_positions_subset_positions hb1 hb2 hq

end Sudoku

namespace Sudoku

theorem mem_all_units {s : Sudoku} {u : List Pos} :
    u ∈ s.all_units ↔
      (∃ y < s.board_size, u = s.row_positions y) ∨
      (∃ x < s.board_size, u = s.col_positions x) ∨
      (∃ b : Pos, b.1 < s.box_size ∧ b.2 < s.box_size ∧ u = s.box_positions b) := by
  simp only [Sudoku.all_units, List.mem_append, List.mem_map, List.mem_flatMap,
    List.mem_range]
  constructor
  · rintro ((⟨y, hy, rfl⟩ | ⟨x, hx, rfl⟩) | ⟨bx, hbx, bj, hbj, rfl⟩)
    · exact Or.inl ⟨y, hy, rfl⟩
    · exact Or.inr (Or.inl ⟨x, hx, rfl⟩)
    · exact Or.inr (Or.inr ⟨(bx, bj), hbx, hbj, rfl⟩)
  · rintro (⟨y, hy, rfl⟩ | ⟨x, hx, rfl⟩ | ⟨b, hb1, hb2, rfl⟩)
    · exact Or.inl (Or.inl ⟨y, hy, rfl⟩)
    · exact Or.inl (Or.inr ⟨x, hx, rfl⟩)
    · exact Or.inr ⟨b.1, hb1, b.2, hb2, by rw [Prod.mk.eta]⟩

theorem row_unit_mem {s : Sudoku} {y : Nat} (hy : y < s.board_size) :
    s.row_positions y ∈ s.all_units :=
  mem_all_units.mpr (Or.inl ⟨y, hy, rfl⟩)

theorem col_unit_mem {s : Sudoku} {x : Nat} (hx : x < s.board_size) :
    s.col_positions x ∈ s.all_units :=
  mem_all_units.mpr (Or.inr (Or.inl ⟨x, hx, rfl⟩))

theorem box_unit_mem {s : Sudoku} {b : Pos} (hb1 : b.1 < s.box_size)
    (hb2 : b.2 < s.box_size) : s.box_positions b ∈ s.all_units :=
  mem_all_units.mpr (Or.inr (Or.inr ⟨b, hb1, hb2, rfl⟩))

theorem box_positions_length (s : Sudoku) (b : Pos) :
    (s.box_positions b).length = s.board_size := by
  unfold Sudoku.box_positions Sudoku.board_size
  rw [List.length_flatMap]
  have hmap : List.map
      (List.length ∘ fun j =>
        List.map (fun i => (b.1 * s.box_size + i, b.2 * s.box_size + j))
          (List.range s.box_size))
      (List.range s.box_size) = List.replicate s.box_size s.box_size := by
    simp [Function.comp_def, List.map_const']
  rw [hmap, List.sum_replicate, smul_eq_mul]

theorem unit_length {s : Sudoku} {u : List Pos} (hu : u ∈ s.all_units) :
    u.length = s.board_size := by
  rcases mem_all_units.mp hu with ⟨y, _, rfl⟩ | ⟨x, _, rfl⟩ | ⟨b, _, _, rfl⟩
  · simp [Sudoku.row_positions]
  · simp [Sudoku.col_positions]
  · exact box_positions_length s b

theorem unit_subset_positions {s : Sudoku} {u : List Pos} {q : Pos}
    (hu : u ∈ s.all_units) (hq : q ∈ u) : q ∈ s.positions := by
  rcases mem_all_units.mp hu with ⟨y, hy, rfl⟩ | ⟨x, hx, rfl⟩ | ⟨b, hb1, hb2, rfl⟩
  · obtain ⟨h2, h1⟩ := mem_row_positions.mp hq
    exact mem_positions.mpr ⟨h1, h2 ▸ hy⟩
  · obtain ⟨h1, h2⟩ := mem_col_positions.mp hq
    exact mem_positions.mpr ⟨h1 ▸ hx, h2⟩
  · exact box_positions_subset_positions hb1 hb2 hq

theorem unit_nodup {s : Sudoku} {u : List Pos} (hu : u ∈ s.all_units) :
    u.Nodup := by
  rcases mem_all_units.mp hu with ⟨y, _, rfl⟩ | ⟨x, _, rfl⟩ | ⟨b, _, _, rfl⟩
  · apply List.Nodup.map_on _ (List.nodup_range _)
    intro a _ c _ h
    exact ((Prod.mk.injEq _ _ _ _).mp h).1
  · apply List.Nodup.map_on _ (List.nodup_range _)
    intro a _ c _ h
    exact ((Prod.mk.injEq _ _ _ _).mp h).2
  · apply nodup_flatMap_key (fun c => c.2 - b.2 * s.box_size)
    · exact List.nodup_range _
    · intro j _
      apply List.Nodup.map_on _ (List.nodup_range _)
      intro a _ c _ h
      have := ((Prod.mk.injEq _ _ _ _).mp h).1
      omega
    · intro j _ c hc
      obtain ⟨i, _, rfl⟩ := List.mem_map.mp hc
      simp

theorem mem_scan_of_shared_unit {s : Sudoku} {u : List Pos} {p q : Pos}
    (hu : u ∈ s.all_units) (hp : p ∈ u) (hq : q ∈ u) : q ∈ s.scan p := by
  unfold Sudoku.scan
  rw [List.mem_append, List.mem_append]
  rcases mem_all_units.mp hu with ⟨y, hy, rfl⟩ | ⟨x, hx, rfl⟩ | ⟨b, hb1, hb2, rfl⟩
  · left; left
    rw [(mem_row_positions.mp hp).1]
    exact hq
  · left; right
    rw [(mem_col_positions.mp hp).1]
    exact hq
  · right
    rw [box_of_mem_box_positions hp]
    exact hq

theorem exists_unit_of_mem_scan {s : Sudoku} {p q : Pos}
    (hp : p ∈ s.positions) (hq : q ∈ s.scan p) :
    ∃ u ∈ s.all_units, p ∈ u ∧ q ∈ u := by
  obtain ⟨h1, h2⟩ := mem_positions.mp hp
  unfold Sudoku.scan at hq
  rw [List.mem_append, List.mem_append] at hq
  rcases hq with (hq | hq) | hq
  · exact ⟨s.row_positions p.2, row_unit_mem h2,
      mem_row_positions.mpr ⟨rfl, h1⟩, hq⟩
  · exact ⟨s.col_positions p.1, col_unit_mem h1,
      mem_col_positions.mpr ⟨rfl, h2⟩, hq⟩
  · obtain ⟨hb1, hb2⟩ := box_of_valid hp
    exact ⟨s.box_positions (s.box_of p), box_unit_mem hb1 hb2,
      self_mem_box_positions hp (box_size_pos hp), hq⟩

end Sudoku

namespace Sudoku

theorem mem_used {s : Sudoku} {p : Pos} {d : Nat} :
    d ∈ s.used p ↔ d ≠ 0 ∧ ∃ q ∈ s.scan p, s.get q = d := by
  unfold Sudoku.used
  simp only [List.mem_filter, List.mem_map, bne_iff_ne, ne_eq]
  constructor
  · rintro ⟨⟨q, hq, rfl⟩, hne⟩
    exact ⟨hne, q, hq, rfl⟩
  · rintro ⟨hne, q, hq, rfl⟩
    exact ⟨⟨q, hq, rfl⟩, hne⟩

theorem mem_digitList {s : Sudoku} {d : Nat} :
    d ∈ digitList s ↔ 1 ≤ d ∧ d ≤ s.board_size := by
  unfold digitList
  simp only [List.mem_map, List.mem_range]
  constructor
  · rintro ⟨a, ha, rfl⟩
    omega
  · rintro ⟨h1, h2⟩
    exact ⟨d - 1, by omega, by omega⟩

theorem digitList_nodup (s : Sudoku) : (digitList s).Nodup :=
  List.Nodup.map (fun a b h => by omega) (List.nodup_range _)

theorem mem_available {s : Sudoku} {p : Pos} {d : Nat} :
    d ∈ s.available p ↔
      1 ≤ d ∧ d ≤ s.board_size ∧ ∀ q ∈ s.scan p, s.get q ≠ d := by
  unfold Sudoku.available Flags.inverse
  rw [List.mem_filter]
  constructor
  · rintro ⟨hmem, hb⟩
    obtain ⟨a, ha, rfl⟩ := List.mem_map.mp hmem
    rw [List.mem_range] at ha
    have hnu : (a + 1) ∉ s.used p := by simpa using hb
    rw [mem_used] at hnu
    refine ⟨by omega, by omega, ?_⟩
    intro q hq hget
    exact hnu ⟨by omega, q, hq, hget⟩
  · rintro ⟨h1, h2, hscan⟩
    refine ⟨List.mem_map.mpr ⟨d - 1, List.mem_range.mpr (by omega), by omega⟩, ?_⟩
    have hnu : d ∉ s.used p := by
      rw [mem_used]
      rintro ⟨hne, q, hq, hget⟩
      exact hscan q hq hget
    simpa using hnu

theorem available_nodup (s : Sudoku) (p : Pos) : (s.available p).Nodup := by
  unfold Sudoku.available Flags.inverse
  exact List.Nodup.filter _ (digitList_nodup s)

theorem available_eq_inverse_used (s : Sudoku) (p : Pos) :
    (s.used p).inverse s.board_size = s.available p := rfl

theorem board_size_congr {b c : Sudoku} (h : c.box_size = b.box_size) :
    c.board_size = b.board_size := by
  unfold Sudoku.board_size
  rw [h]

theorem positions_congr {b c : Sudoku} (h : c.box_size = b.box_size) :
    c.positions = b.positions := by
  unfold Sudoku.positions
  rw [board_size_congr h]

theorem all_units_congr {b c : Sudoku} (h : c.box_size = b.box_size) :
    c.all_units = b.all_units := by
  unfold Sudoku.all_units Sudoku.row_positions Sudoku.col_positions
    Sudoku.box_positions
  rw [board_size_congr h, h]

theorem digitList_congr {b c : Sudoku} (h : c.box_size = b.box_size) :
    digitList c = digitList b := by
  unfold digitList
  rw [board_size_congr h]

end Sudoku

/-- The unit digits of a fully solved board are a permutation of the digit
range. -/
theorem validsolved_unit_perm {s : Sudoku} (hv : ValidSolved s) {u : List Pos}
    (hu : u ∈ s.all_units) :
    (u.map (fun q => s.get q)).Perm (digitList s) := by
  have hsub : List.Subperm (digitList s) (u.map (fun q => s.get q)) := by
    rw [List.subperm_ext_iff]
    intro a ha
    rw [List.count_eq_one_of_mem (Sudoku.digitList_nodup s) ha, hv.2 u hu a ha]
  apply (List.Subperm.perm_of_length_le hsub ?_).symm
  rw [List.length_map, Sudoku.unit_length hu]
  unfold digitList
  rw [List.length_map, List.length_range]

/-- Unit digits of a fully solved board lie in the digit range. -/
theorem validsolved_get_mem {s : Sudoku} (hv : ValidSolved s) {u : List Pos}
    (hu : u ∈ s.all_units) {q : Pos} (hq : q ∈ u) : s.get q ∈ digitList s := by
  have := validsolved_unit_perm hv hu
  rw [← this.mem_iff]
  exact List.mem_map.mpr ⟨q, hq, rfl⟩

/-- Unit digits of a fully solved board are pairwise distinct. -/
theorem validsolved_nodup {s : Sudoku} (hv : ValidSolved s) {u : List Pos}
    (hu : u ∈ s.all_units) : (u.map (fun q => s.get q)).Nodup :=
  (validsolved_unit_perm hv hu).symm.nodup (Sudoku.digitList_nodup s)

/-- The digit a solution places at an empty cell is available there. -/
theorem sol_get_mem_available {b c : Sudoku} (hsol : IsSolutionOf b c) {p : Pos}
    (hp : p ∈ b.positions) (hemp : b.get p = 0) : c.get p ∈ b.available p := by
  obtain ⟨hbox, hlen, hfill, hvalid⟩ := hsol
  have hpc : p ∈ c.positions := by rw [Sudoku.positions_congr hbox]; exact hp
  have hd : c.get p ∈ digitList b := by
    rw [← Sudoku.digitList_congr hbox]
    have h2 : p.2 < c.board_size := (Sudoku.mem_positions.mp hpc).2
    exact validsolved_get_mem hvalid (Sudoku.row_unit_mem h2)
      (Sudoku.mem_row_positions.mpr ⟨rfl, (Sudoku.mem_positions.mp hpc).1⟩)
  rw [Sudoku.mem_digitList] at hd
  rw [Sudoku.mem_available]
  refine ⟨hd.1, hd.2, ?_⟩
  intro q hq hget
  have hq0 : b.get q ≠ 0 := by rw [hget]; omega
  have hqpos : q ∈ b.positions := Sudoku.scan_subset_positions hp hq
  have hcq : c.get q = b.get q := hfill q hqpos hq0
  have hqp : q ≠ p := fun h => hq0 (h ▸ hemp)
  obtain ⟨u, hu, hpu, hqu⟩ := Sudoku.exists_unit_of_mem_scan hp hq
  have huc : u ∈ c.all_units := by rw [Sudoku.all_units_congr hbox]; exact hu
  have hnd := validsolved_nodup hvalid huc
  rw [List.nodup_map_iff_inj_on (Sudoku.unit_nodup huc)] at hnd
  apply hqp
  apply hnd q hqu p hpu
  rw [hcq, hget]

/-- Pointwise relation between two maps over the same list. -/
theorem forall₂_map_same {α β γ : Type} (R : β → γ → Prop) (f : α → β)
    (g : α → γ) :
    ∀ l : List α, (∀ a ∈ l, R (f a) (g a)) →
      List.Forall₂ R (l.map f) (l.map g) := by
  intro l
  induction l with
  | nil => intro _; simp
  | cons a t ih =>
    intro h
    simp only [List.map_cons, List.forall₂_cons]
    exact ⟨h a (List.mem_cons_self a t), ih fun x hx => h x (List.mem_cons_of_mem _ hx)⟩

/-- A solvable board passes the perfect-matching test on every unit. -/
theorem matching_of_solution {b c : Sudoku} (hsol : IsSolutionOf b c)
    {u : List Pos} (hu : u ∈ b.all_units) :
    has_perfect_matching (u.map (fun q => b.avail_or_value q)) = true := by
  unfold has_perfect_matching
  apply sdr_exists_of_choice _ (u.map (fun q => c.get q)) []
  · apply forall₂_map_same
    intro q hq
    have hqpos : q ∈ b.positions := Sudoku.unit_subset_positions hu hq
    unfold Sudoku.avail_or_value
    by_cases h0 : b.get q = 0
    · rw [if_pos h0]
      exact sol_get_mem_available hsol hqpos h0
    · rw [if_neg h0, hsol.2.2.1 q hqpos h0]
      exact List.mem_singleton_self _
  · have huc : u ∈ c.all_units := by
      rw [Sudoku.all_units_congr hsol.1]; exact hu
    exact validsolved_nodup hsol.2.2.2 huc
  · simp

/-- Elements of the empty-cell candidate list inside `is_unsolvable`. -/
theorem mem_empty_options {s : Sudoku} {f : Flags} :
    f ∈ (s.iter.filter (fun dp => dp.1 == 0)).map
        (fun dp => (s.used dp.2).inverse s.board_size) ↔
      ∃ p ∈ s.positions, s.get p = 0 ∧ f = s.available p := by
  constructor
  · intro hf
    obtain ⟨dp, hdp, rfl⟩ := List.mem_map.mp hf
    obtain ⟨hdpi, hv0⟩ := List.mem_filter.mp hdp
    obtain ⟨r, hr, rfl⟩ := List.mem_map.mp hdpi
    exact ⟨r, hr, by simpa using hv0, rfl⟩
  · rintro ⟨p, hp, hemp, rfl⟩
    apply List.mem_map.mpr
    exact ⟨(s.get p, p),
      List.mem_filter.mpr ⟨List.mem_map.mpr ⟨p, hp, rfl⟩, by simpa using hemp⟩, rfl⟩

/-- Characterization of the domain-exhaustion component of `is_unsolvable`. -/
theorem field_out_iff {s : Sudoku} :
    (match rust_min_by Flags.size
        ((s.iter.filter (fun dp => dp.1 == 0)).map
          (fun dp => (s.used dp.2).inverse s.board_size)) with
      | none => false
      | some f => decide (f.size < 1)) = true ↔
      ∃ p ∈ s.positions, s.get p = 0 ∧ s.available p = [] := by
  cases hM : rust_min_by Flags.size
      ((s.iter.filter (fun dp => dp.1 == 0)).map
        (fun dp => (s.used dp.2).inverse s.board_size)) with
  | none =>
    simp only [Bool.false_eq_true, false_iff]
    rintro ⟨p, hp, hemp, hav⟩
    have hmem : s.available p ∈
        (s.iter.filter (fun dp => dp.1 == 0)).map
          (fun dp => (s.used dp.2).inverse s.board_size) :=
      mem_empty_options.mpr ⟨p, hp, hemp, rfl⟩
    rw [(rust_min_by_eq_none _ _).mp hM] at hmem
    exact absurd hmem (List.not_mem_nil _)
  | some f =>
    simp only [decide_eq_true_eq]
    constructor
    · intro hsize
      obtain ⟨p, hp, hemp, hf⟩ := mem_empty_options.mp (rust_min_by_mem hM)
      refine ⟨p, hp, hemp, ?_⟩
      rw [← hf]
      unfold Flags.size at hsize
      exact List.length_eq_zero.mp (by omega)
    · rintro ⟨p, hp, hemp, hav⟩
      have hmem : s.available p ∈
          (s.iter.filter (fun dp => dp.1 == 0)).map
            (fun dp => (s.used dp.2).inverse s.board_size) :=
        mem_empty_options.mpr ⟨p, hp, hemp, rfl⟩
      have := rust_min_by_le hM _ hmem
      rw [hav] at this
      unfold Flags.size at this ⊢
      simp only [List.length_nil] at this
      omega

/-- Full characterization of `is_unsolvable`. -/
theorem is_unsolvable_iff {s : Sudoku} :
    is_unsolvable s = true ↔
      (∃ p ∈ s.positions, s.get p = 0 ∧ s.available p = []) ∨
      (∃ y < s.board_size, has_perfect_matching (s.iter_row_avail y) = false) ∨
      (∃ x < s.board_size, has_perfect_matching (s.iter_column_avail x) = false) ∨
      (∃ b : Pos, b.1 < s.box_size ∧ b.2 < s.box_size ∧
        has_perfect_matching (s.iter_box_avail b) = false) := by
  unfold is_unsolvable
  simp only [Bool.or_eq_true, List.any_eq_true, List.mem_range, Bool.not_eq_true',
    List.mem_flatMap, List.mem_map]
  constructor
  · rintro (((hf | ⟨y, hy, hm⟩) | ⟨x, hx, hm⟩) | ⟨bb, ⟨bx, hbx, bj, hbj, hb⟩, hm⟩)
    · exact Or.inl (field_out_iff.mp hf)
    · exact Or.inr (Or.inl ⟨y, hy, hm⟩)
    · exact Or.inr (Or.inr (Or.inl ⟨x, hx, hm⟩))
    · refine Or.inr (Or.inr (Or.inr ⟨bb, ?_, ?_, hm⟩)) <;> rw [← hb]
      · exact hbx
      · exact hbj
  · rintro (hf | ⟨y, hy, hm⟩ | ⟨x, hx, hm⟩ | ⟨bb, hb1, hb2, hm⟩)
    · exact Or.inl (Or.inl (Or.inl (field_out_iff.mpr hf)))
    · exact Or.inl (Or.inl (Or.inr ⟨y, hy, hm⟩))
    · exact Or.inl (Or.inr ⟨x, hx, hm⟩)
    · exact Or.inr ⟨bb, ⟨bb.1, hb1, bb.2, hb2, by rw [Prod.mk.eta]⟩, hm⟩

/-- Soundness core: a board flagged by the direct unsolvability check has no
solution. -/
theorem unsolvable_not_solution {b c : Sudoku} (hun : is_unsolvable b = true)
    (hsol : IsSolutionOf b c) : False := by
  rw [is_unsolvable_iff] at hun
  rcases hun with ⟨p, hp, hemp, hav⟩ | ⟨y, hy, hm⟩ | ⟨x, hx, hm⟩ | ⟨bb, hb1, hb2, hm⟩
  · have := sol_get_mem_available hsol hp hemp
    rw [hav] at this
    exact absurd this (List.not_mem_nil _)
  · exact absurd (matching_of_solution hsol (Sudoku.row_unit_mem hy))
      (by rw [show (b.row_positions y).map (fun q => b.avail_or_value q) =
        b.iter_row_avail y from rfl, hm]; simp)
  · exact absurd (matching_of_solution hsol (Sudoku.col_unit_mem hx))
      (by rw [show (b.col_positions x).map (fun q => b.avail_or_value q) =
        b.iter_column_avail x from rfl, hm]; simp)
  · exact absurd (matching_of_solution hsol (Sudoku.box_unit_mem hb1 hb2))
      (by rw [show (b.box_positions bb).map (fun q => b.avail_or_value q) =
        b.iter_box_avail bb from rfl, hm]; simp)

/-- Placing a digit never enlarges another cell's available set. -/
theorem available_set_subset {s : Sudoku} {p r : Pos} {d : Nat}
    (hp : p ∈ s.positions) (hemp : s.get p = 0) (hr : r ∈ s.positions) :
    ∀ e ∈ (s.set p d).available r, e ∈ s.available r := by
  intro e he
  rw [Sudoku.mem_available] at he ⊢
  obtain ⟨h1, h2, hscan⟩ := he
  refine ⟨h1, h2, ?_⟩
  intro q hq
  by_cases hqp : q = p
  · rw [hqp, hemp]; omega
  · have := hscan q hq
    rwa [Sudoku.get_set_ne_pos d hp (Sudoku.scan_subset_positions hr hq) hqp] at this

/-- Placing an available digit never enlarges any cell's matching candidate
set. -/
theorem avail_or_value_set_subset {s : Sudoku} {p r : Pos} {d : Nat}
    (hp : p ∈ s.positions) (hemp : s.get p = 0) (hd : d ∈ s.available p)
    (hlen : s.idx p < s.cells.length) (hr : r ∈ s.positions) :
    ∀ e ∈ (s.set p d).avail_or_value r, e ∈ s.avail_or_value r := by
  intro e he
  have hd1 : 1 ≤ d := (Sudoku.mem_available.mp hd).1
  by_cases hrp : r = p
  · subst hrp
    unfold Sudoku.avail_or_value at he ⊢
    rw [Sudoku.get_set_self hlen d] at he
    rw [if_neg (by omega : ¬d = 0)] at he
    rw [if_pos hemp]
    rw [List.mem_singleton] at he
    rw [he]
    exact hd
  · unfold Sudoku.avail_or_value at he ⊢
    rw [Sudoku.get_set_ne_pos d hp hr hrp] at he
    by_cases h0 : s.get r = 0
    · rw [if_pos h0] at he ⊢
      exact available_set_subset hp hemp hr e he
    · rw [if_neg h0] at he ⊢
      exact he

/-- Placing an available digit preserves a unit's matching failure. -/
theorem matching_set_mono {s : Sudoku} {p : Pos} {d : Nat}
    (hp : p ∈ s.positions) (hemp : s.get p = 0) (hd : d ∈ s.available p)
    (hlen : s.idx p < s.cells.length) {u : List Pos}
    (husub : ∀ r ∈ u, r ∈ s.positions) :
    has_perfect_matching (u.map (fun q => (s.set p d).avail_or_value q)) = true →
      has_perfect_matching (u.map (fun q => s.avail_or_value q)) = true := by
  unfold has_perfect_matching
  apply sdr_exists_mono
  apply forall₂_map_same
  intro r hr
  exact avail_or_value_set_subset hp hemp hd hlen (husub r hr)

/-- Monotonicity: a board already flagged unsolvable stays flagged after any
available placement. -/
theorem is_unsolvable_set_mono {s : Sudoku} {p : Pos} {d : Nat}
    (hp : p ∈ s.positions) (hemp : s.get p = 0) (hd : d ∈ s.available p)
    (hun : is_unsolvable s = true) : is_unsolvable (s.set p d) = true := by
  by_cases hlen : s.idx p < s.cells.length
  · rw [is_unsolvable_iff] at hun ⊢
    rcases hun with ⟨q, hq, hq0, hqav⟩ | ⟨y, hy, hm⟩ | ⟨x, hx, hm⟩ | ⟨bb, hb1, hb2, hm⟩
    · left
      have hqp : q ≠ p := by
        intro h
        subst h
        rw [hqav] at hd
        exact absurd hd (List.not_mem_nil _)
      refine ⟨q, hq, ?_, ?_⟩
      · rw [Sudoku.get_set_ne_pos d hp hq hqp]; exact hq0
      · rw [List.eq_nil_iff_forall_not_mem]
        intro e he
        have := available_set_subset hp hemp hq e he
        rw [hqav] at this
        exact absurd this (List.not_mem_nil _)
    · right; left
      refine ⟨y, hy, ?_⟩
      by_contra hne
      rw [Bool.not_eq_false] at hne
      have := matching_set_mono hp hemp hd hlen
        (fun r hr => Sudoku.unit_subset_positions (Sudoku.row_unit_mem hy) hr) hne
      rw [show (s.row_positions y).map (fun q => s.avail_or_value q) =
        s.iter_row_avail y from rfl, hm] at this
      exact absurd this (by simp)
    · right; right; left
      refine ⟨x, hx, ?_⟩
      by_contra hne
      rw [Bool.not_eq_false] at hne
      have := matching_set_mono hp hemp hd hlen
        (fun r hr => Sudoku.unit_subset_positions (Sudoku.col_unit_mem hx) hr) hne
      rw [show (s.col_positions x).map (fun q => s.avail_or_value q) =
        s.iter_column_avail x from rfl, hm] at this
      exact absurd this (by simp)
    · right; right; right
      refine ⟨bb, hb1, hb2, ?_⟩
      by_contra hne
      rw [Bool.not_eq_false] at hne
      have := matching_set_mono hp hemp hd hlen
        (fun r hr => Sudoku.unit_subset_positions (Sudoku.box_unit_mem hb1 hb2) hr) hne
      rw [show (s.box_positions bb).map (fun q => s.avail_or_value q) =
        s.iter_box_avail bb from rfl, hm] at this
      exact absurd this (by simp)
  · rw [Sudoku.set_oob d (by omega)]
    exact hun

/-- On a fully filled board, a unit passes the matching test exactly when its
values are pairwise distinct. -/
theorem full_unit_matching_iff {s : Sudoku}
    (hfull : ∀ p ∈ s.positions, s.get p ≠ 0) {u : List Pos}
    (hu : u ∈ s.all_units) :
    has_perfect_matching (u.map (fun q => s.avail_or_value q)) = true ↔
      ∀ p ∈ u, ∀ q ∈ u, p ≠ q → s.get p ≠ s.get q := by
  have hmap : u.map (fun q => s.avail_or_value q) =
      (u.map (fun q => s.get q)).map (fun v => [v]) := by
    rw [List.map_map]
    apply List.map_congr_left
    intro q hq
    unfold Sudoku.avail_or_value Function.comp
    rw [if_neg (hfull q (Sudoku.unit_subset_positions hu hq))]
  rw [hmap]
  unfold has_perfect_matching
  rw [sdr_exists_singleton]
  simp only [List.not_mem_nil, not_false_eq_true, implies_true, and_true]
  rw [List.nodup_map_iff_inj_on (Sudoku.unit_nodup hu)]
  constructor
  · intro hinj p hp q hq hne hget
    exact hne (hinj p hp q hq hget)
  · intro hpair p hp q hq hget
    by_contra hne
    exact hpair p hp q hq hne hget

/-- On a fully filled board, the unsolvability check fails exactly on a
duplicate inside some unit. -/
theorem is_unsolvable_full_iff {s : Sudoku}
    (hfull : ∀ p ∈ s.positions, s.get p ≠ 0) :
    is_unsolvable s = false ↔
      ∀ u ∈ s.all_units, ∀ p ∈ u, ∀ q ∈ u, p ≠ q → s.get p ≠ s.get q := by
  rw [← Bool.not_eq_true, is_unsolvable_iff]
  push_neg
  constructor
  · rintro ⟨-, hrow, hcol, hbox⟩ u hu
    rcases Sudoku.mem_all_units.mp hu with ⟨y, hy, rfl⟩ | ⟨x, hx, rfl⟩ | ⟨bb, hb1, hb2, rfl⟩
    · have := hrow y hy
      rw [Bool.ne_false_iff] at this
      exact (full_unit_matching_iff hfull (Sudoku.row_unit_mem hy)).mp this
    · have := hcol x hx
      rw [Bool.ne_false_iff] at this
      exact (full_unit_matching_iff hfull (Sudoku.col_unit_mem hx)).mp this
    · have := hbox bb hb1 hb2
      rw [Bool.ne_false_iff] at this
      exact (full_unit_matching_iff hfull (Sudoku.box_unit_mem hb1 hb2)).mp this
  · intro hpair
    refine ⟨?_, ?_, ?_, ?_⟩
    · rintro p hp hemp -
      exact hfull p hp hemp
    · intro y hy
      rw [Bool.ne_false_iff]
      exact (full_unit_matching_iff hfull (Sudoku.row_unit_mem hy)).mpr
        (hpair _ (Sudoku.row_unit_mem hy))
    · intro x hx
      rw [Bool.ne_false_iff]
      exact (full_unit_matching_iff hfull (Sudoku.col_unit_mem hx)).mpr
        (hpair _ (Sudoku.col_unit_mem hx))
    · intro bb hb1 hb2
      rw [Bool.ne_false_iff]
      exact (full_unit_matching_iff hfull (Sudoku.box_unit_mem hb1 hb2)).mpr
        (hpair _ (Sudoku.box_unit_mem hb1 hb2))

/-- Placing an available digit at an empty cell keeps the board consistent. -/
theorem consistent_set {s : Sudoku} {p : Pos} {d : Nat} (hc : Consistent s)
    (hp : p ∈ s.positions) (hemp : s.get p = 0) (hd : d ∈ s.available p) :
    Consistent (s.set p d) := by
  by_cases hlen : s.idx p < s.cells.length
  · intro u hu p1 hp1 p2 hp2 hne h1 h2
    have hu' : u ∈ s.all_units := hu
    have hv1 : p1 ∈ s.positions := Sudoku.unit_subset_positions hu' hp1
    have hv2 : p2 ∈ s.positions := Sudoku.unit_subset_positions hu' hp2
    have havd := (Sudoku.mem_available.mp hd).2.2
    by_cases e1 : p1 = p <;> by_cases e2 : p2 = p
    · exact absurd (e1.trans e2.symm) hne
    · subst e1
      rw [Sudoku.get_set_self hlen d]
      rw [Sudoku.get_set_ne_pos d hp hv2 e2] at h2 ⊢
      intro hdq
      exact havd p2 (Sudoku.mem_scan_of_shared_unit hu' hp1 hp2) (hdq.symm)
    · subst e2
      rw [Sudoku.get_set_self hlen d]
      rw [Sudoku.get_set_ne_pos d hp hv1 e1] at h1 ⊢
      intro hdq
      exact havd p1 (Sudoku.mem_scan_of_shared_unit hu' hp2 hp1) hdq
    · rw [Sudoku.get_set_ne_pos d hp hv1 e1] at h1 ⊢
      rw [Sudoku.get_set_ne_pos d hp hv2 e2] at h2 ⊢
      exact hc u hu' p1 hp1 p2 hp2 hne h1 h2
  · rw [Sudoku.set_oob d (by omega)]
    exact hc

/-- Placing an available digit keeps all filled digits inside the range. -/
theorem inrange_set {s : Sudoku} {p : Pos} {d : Nat} (hir : InRange s)
    (hp : p ∈ s.positions) (hd : d ∈ s.available p) :
    InRange (s.set p d) := by
  by_cases hlen : s.idx p < s.cells.length
  · intro q hq h0
    have hq' : q ∈ s.positions := hq
    by_cases hqp : q = p
    · subst hqp
      rw [Sudoku.get_set_self hlen d] at h0 ⊢
      obtain ⟨hd1, hd2, -⟩ := Sudoku.mem_available.mp hd
      exact Sudoku.mem_digitList.mpr ⟨hd1, hd2⟩
    · rw [Sudoku.get_set_ne_pos d hp hq' hqp] at h0 ⊢
      exact hir q hq' h0
  · rw [Sudoku.set_oob d (by omega)]
    exact hir

/-- A fully filled, consistent, in-range board is fully solved. -/
theorem validsolved_of_full {s : Sudoku}
    (hfull : ∀ p ∈ s.positions, s.get p ≠ 0) (hc : Consistent s)
    (hir : InRange s) : ValidSolved s := by
  refine ⟨hfull, ?_⟩
  intro u hu d hd
  have hperm : (u.map (fun q => s.get q)).Perm (digitList s) := by
    have hnd : (u.map (fun q => s.get q)).Nodup := by
      rw [List.nodup_map_iff_inj_on (Sudoku.unit_nodup hu)]
      intro x hx y hy hgxy
      by_contra hne
      exact hc u hu x hx y hy hne (hfull x (Sudoku.unit_subset_positions hu hx))
        (hfull y (Sudoku.unit_subset_positions hu hy)) hgxy
    have hsub : u.map (fun q => s.get q) ⊆ digitList s := by
      intro v hv
      obtain ⟨q, hq, rfl⟩ := List.mem_map.mp hv
      exact hir q (Sudoku.unit_subset_positions hu hq)
        (hfull q (Sudoku.unit_subset_positions hu hq))
    apply List.Subperm.perm_of_length_le (List.subperm_of_subset hnd hsub)
    rw [List.length_map, Sudoku.unit_length hu]
    unfold digitList
    rw [List.length_map, List.length_range]
  rw [hperm.count_eq]
  exact List.count_eq_one_of_mem (Sudoku.digitList_nodup s) hd

/-- Elements of the option list built by `get_best_options`. -/
theorem mem_gbo_options {s : Sudoku} {fp : Flags × Pos} :
    fp ∈ (s.iter.filter (fun dp => dp.1 == 0)).map
        (fun dp => (s.available dp.2, dp.2)) ↔
      ∃ p ∈ s.positions, s.get p = 0 ∧ fp = (s.available p, p) := by
  constructor
  · intro hf
    obtain ⟨dp, hdp, rfl⟩ := List.mem_map.mp hf
    obtain ⟨hdpi, hv0⟩ := List.mem_filter.mp hdp
    obtain ⟨r, hr, rfl⟩ := List.mem_map.mp hdpi
    exact ⟨r, hr, by simpa using hv0, rfl⟩
  · rintro ⟨p, hp, hemp, rfl⟩
    apply List.mem_map.mpr
    exact ⟨(s.get p, p),
      List.mem_filter.mpr ⟨List.mem_map.mpr ⟨p, hp, rfl⟩, by simpa using hemp⟩, rfl⟩

/-- The branch selector returns `none` exactly on boards without empty
cells. -/
theorem gbo_none_iff {s : Sudoku} :
    get_best_options s = none ↔ ∀ p ∈ s.positions, s.get p ≠ 0 := by
  unfold get_best_options
  cases hM : rust_min_by (fun fp => fp.1.size)
      ((s.iter.filter (fun dp => dp.1 == 0)).map
        (fun dp => (s.available dp.2, dp.2))) with
  | none =>
    simp only [hM]
    constructor
    · intro _ p hp hemp
      have hmem : (s.available p, p) ∈
          (s.iter.filter (fun dp => dp.1 == 0)).map
            (fun dp => (s.available dp.2, dp.2)) :=
        mem_gbo_options.mpr ⟨p, hp, hemp, rfl⟩
      rw [(rust_min_by_eq_none _ _).mp hM] at hmem
      exact absurd hmem (List.not_mem_nil _)
    · intro _; trivial
  | some fp =>
    simp only [hM]
    obtain ⟨p, hp, hemp, -⟩ := mem_gbo_options.mp (rust_min_by_mem hM)
    constructor
    · intro hres
      by_cases hsz : fp.1.size > 1
      · rw [if_pos hsz] at hres
        rw [rust_min_by_eq_none, List.map_eq_nil_iff] at hres
        have hmem : (s.available p, p) ∈
            (s.iter.filter (fun dp => dp.1 == 0)).map
              (fun dp => (s.available dp.2, dp.2)) :=
          mem_gbo_options.mpr ⟨p, hp, hemp, rfl⟩
        rw [hres] at hmem
        exact absurd hmem (List.not_mem_nil _)
      · rw [if_neg hsz] at hres
        exact absurd hres (by simp)
    · intro hfull
      exact absurd hemp (hfull p hp)

/-- Any branch-selector answer names an empty cell and its raw or refined
candidate set. -/
theorem gbo_some_spec {s : Sudoku} {f : Flags} {p : Pos}
    (h : get_best_options s = some (f, p)) :
    p ∈ s.positions ∧ s.get p = 0 ∧
      (f = s.available p ∨
        f = (s.available p).filter (fun e => !is_unsolvable (s.set p e))) := by
  unfold get_best_options at h
  cases hM : rust_min_by (fun fp => fp.1.size)
      ((s.iter.filter (fun dp => dp.1 == 0)).map
        (fun dp => (s.available dp.2, dp.2))) with
  | none => simp only [hM] at h; exact absurd h (by simp)
  | some fp0 =>
    simp only [hM] at h
    by_cases hsz : fp0.1.size > 1
    · rw [if_pos hsz] at h
      obtain ⟨gq, hgq, hgqeq⟩ := List.mem_map.mp (rust_min_by_mem h)
      obtain ⟨q, hq, hqemp, rfl⟩ := mem_gbo_options.mp hgq
      simp only [Prod.mk.injEq] at hgqeq
      obtain ⟨hf, rfl⟩ := hgqeq
      exact ⟨hq, hqemp, Or.inr hf.symm⟩
    · rw [if_neg hsz] at h
      rw [h] at hM
      obtain ⟨q, hq, hqemp, heq⟩ := mem_gbo_options.mp (rust_min_by_mem hM)
      rw [Prod.mk.injEq] at heq
      obtain ⟨rfl, rfl⟩ := heq
      exact ⟨hq, hqemp, Or.inl rfl⟩

/-- A digit of the chosen cell surviving the forward check is kept by the
branch selector. -/
theorem gbo_some_complete {s : Sudoku} {f : Flags} {p : Pos} {d : Nat}
    (h : get_best_options s = some (f, p)) (hd : d ∈ s.available p)
    (hnu : is_unsolvable (s.set p d) = false) : d ∈ f := by
  rcases (gbo_some_spec h).2.2 with hf | hf
  · rw [hf]; exact hd
  · rw [hf]
    exact List.mem_filter.mpr ⟨hd, by rw [hnu]; rfl⟩

/-- Every board yielded by the enumeration keeps the input's shape and all of
its filled cells. -/
theorem solution_iterF_shape :
    ∀ (fuel : Nat) (lock : Bool) (s c : Sudoku), c ∈ solution_iterF lock fuel s →
      c.box_size = s.box_size ∧ c.cells.length = s.cells.length ∧
        ∀ q ∈ s.positions, s.get q ≠ 0 → c.get q = s.get q := by
  intro fuel
  induction fuel with
  | zero =>
    intro lock s c hc
    simp only [solution_iterF] at hc
    exact absurd hc (List.not_mem_nil _)
  | succ n ih =>
    intro lock s c hc
    simp only [solution_iterF] at hc
    cases lock with
    | true => simp at hc
    | false =>
      simp only [Bool.false_eq_true, if_false] at hc
      cases hgbo : get_best_options s with
      | none =>
        rw [hgbo] at hc
        simp only [List.mem_singleton] at hc
        subst hc
        exact ⟨rfl, rfl, fun q _ _ => rfl⟩
      | some fp =>
        obtain ⟨f, p⟩ := fp
        rw [hgbo] at hc
        simp only [List.mem_flatMap] at hc
        obtain ⟨d, hd, hcmem⟩ := hc
        obtain ⟨hbox, hlen, hfill⟩ := ih false (s.set p d) c hcmem
        obtain ⟨hp, hemp, -⟩ := gbo_some_spec hgbo
        refine ⟨hbox, hlen.trans (Sudoku.set_cells_length s p d), ?_⟩
        intro q hq h0
        have hqp : q ≠ p := fun h => h0 (h ▸ hemp)
        have hset : (s.set p d).get q = s.get q := Sudoku.get_set_ne_pos d hp hq hqp
        rw [← hset]
        apply hfill q hq
        rw [hset]
        exact h0

/-- Soundness of the enumeration: from a well-formed consistent in-range
board, every yielded board is a solution. -/
theorem solution_iterF_sound :
    ∀ (fuel : Nat) (s c : Sudoku), s.WF → Consistent s → InRange s →
      c ∈ solution_iterF false fuel s → IsSolutionOf s c := by
  intro fuel
  induction fuel with
  | zero =>
    intro s c _ _ _ hc
    simp only [solution_iterF] at hc
    exact absurd hc (List.not_mem_nil _)
  | succ n ih =>
    intro s c hwf hcons hir hc
    simp only [solution_iterF, Bool.false_eq_true, if_false] at hc
    cases hgbo : get_best_options s with
    | none =>
      rw [hgbo] at hc
      simp only [List.mem_singleton] at hc
      subst hc
      refine ⟨rfl, rfl, fun q _ _ => rfl, ?_⟩
      exact validsolved_of_full (gbo_none_iff.mp hgbo) hcons hir
    | some fp =>
      obtain ⟨f, p⟩ := fp
      rw [hgbo] at hc
      simp only [List.mem_flatMap] at hc
      obtain ⟨d, hdf, hcmem⟩ := hc
      obtain ⟨hp, hemp, hfcase⟩ := gbo_some_spec hgbo
      have hd : d ∈ s.available p := by
        rcases hfcase with hf | hf
        · rw [hf] at hdf; exact hdf
        · rw [hf] at hdf; exact (List.mem_filter.mp hdf).1
      have hlen : s.idx p < s.cells.length := by
        rw [hwf]
        exact Sudoku.idx_lt (Sudoku.mem_positions.mp hp).1 (Sudoku.mem_positions.mp hp).2
      have hwf' : (s.set p d).WF := by
        unfold Sudoku.WF
        rw [Sudoku.set_cells_length]
        exact hwf
      have hsol' := ih (s.set p d) c hwf' (consistent_set hcons hp hemp hd)
        (inrange_set hir hp hd) hcmem
      obtain ⟨hbox, hclen, hfill, hvalid⟩ := hsol'
      refine ⟨hbox, hclen.trans (Sudoku.set_cells_length s p d), ?_, hvalid⟩
      intro q hq h0
      have hqp : q ≠ p := fun h => h0 (h ▸ hemp)
      have hset : (s.set p d).get q = s.get q := Sudoku.get_set_ne_pos d hp hq hqp
      rw [← hset]
      apply hfill q hq
      rw [hset]
      exact h0

/-- Completeness of the enumeration: with enough fuel, every solution of a
well-formed board is yielded. -/
theorem solution_iterF_complete :
    ∀ (fuel : Nat) (s c : Sudoku), s.WF → s.emptyCount < fuel →
      IsSolutionOf s c → c ∈ solution_iterF false fuel s := by
  intro fuel
  induction fuel with
  | zero => intro s c _ hcount _; omega
  | succ n ih =>
    intro s c hwf hcount hsol
    simp only [solution_iterF, Bool.false_eq_true, if_false]
    cases hgbo : get_best_options s with
    | none =>
      simp only [List.mem_singleton]
      have hfull := gbo_none_iff.mp hgbo
      obtain ⟨hbox, hclen, hfill, hvalid⟩ := hsol
      have hbsize : c.board_size = s.board_size := Sudoku.board_size_congr hbox
      have hlens : s.cells.length = s.board_size * s.board_size := hwf
      cases c with
      | mk cbox ccells =>
        cases s with
        | mk sbox scells =>
          simp only at hbox
          subst hbox
          simp only [Sudoku.mk.injEq, true_and]
          apply List.ext_getElem (by rw [hclen])
          intro i h1 h2
          have hilt : i < (Sudoku.mk cbox scells).board_size *
              (Sudoku.mk cbox scells).board_size := by
            rw [← hlens]
            exact h2
          have hp : ((i % (Sudoku.mk cbox scells).board_size,
              i / (Sudoku.mk cbox scells).board_size) : Pos) ∈
              (Sudoku.mk cbox scells).positions :=
            List.mem_map.mpr ⟨i, List.mem_range.mpr hilt, rfl⟩
          have hidx : (Sudoku.mk cbox scells).idx
              (i % (Sudoku.mk cbox scells).board_size,
                i / (Sudoku.mk cbox scells).board_size) = i := by
            show i / (Sudoku.mk cbox scells).board_size *
                (Sudoku.mk cbox scells).board_size +
                i % (Sudoku.mk cbox scells).board_size = i
            rw [Nat.mul_comm]
            exact Nat.div_add_mod i (Sudoku.mk cbox scells).board_size
          have hgets : (Sudoku.mk cbox scells).get
              (i % (Sudoku.mk cbox scells).board_size,
                i / (Sudoku.mk cbox scells).board_size) = scells[i] := by
            show scells.getD ((Sudoku.mk cbox scells).idx _) 0 = scells[i]
            rw [hidx, List.getD_eq_getElem?_getD, List.getElem?_eq_getElem h2]
            rfl
          have hgetc : (Sudoku.mk cbox ccells).get
              (i % (Sudoku.mk cbox scells).board_size,
                i / (Sudoku.mk cbox scells).board_size) = ccells[i] := by
            show ccells.getD ((Sudoku.mk cbox ccells).idx _) 0 = ccells[i]
            rw [show (Sudoku.mk cbox ccells).idx
                (i % (Sudoku.mk cbox scells).board_size,
                  i / (Sudoku.mk cbox scells).board_size) =
              (Sudoku.mk cbox scells).idx
                (i % (Sudoku.mk cbox scells).board_size,
                  i / (Sudoku.mk cbox scells).board_size) from rfl]
            rw [hidx, List.getD_eq_getElem?_getD, List.getElem?_eq_getElem h1]
            rfl
          rw [← hgets, ← hgetc]
          exact hfill _ hp (hfull _ hp)
    | some fp =>
      obtain ⟨f, p⟩ := fp
      simp only [List.mem_flatMap]
      obtain ⟨hp, hemp, -⟩ := gbo_some_spec hgbo
      have hd : c.get p ∈ s.available p := sol_get_mem_available hsol hp hemp
      have hlen : s.idx p < s.cells.length := by
        rw [hwf]
        exact Sudoku.idx_lt (Sudoku.mem_positions.mp hp).1 (Sudoku.mem_positions.mp hp).2
      have hd0 : c.get p ≠ 0 := by
        have := (Sudoku.mem_available.mp hd).1
        omega
      have hsolset : IsSolutionOf (s.set p (c.get p)) c := by
        obtain ⟨hbox, hclen, hfill, hvalid⟩ := hsol
        refine ⟨hbox, hclen.trans (Sudoku.set_cells_length s p (c.get p)).symm, ?_, hvalid⟩
        intro q hq h0
        by_cases hqp : q = p
        · subst hqp
          rw [Sudoku.get_set_self hlen]
        · rw [Sudoku.get_set_ne_pos _ hp hq hqp] at h0 ⊢
          exact hfill q hq h0
      have hnu : is_unsolvable (s.set p (c.get p)) = false := by
        cases hun : is_unsolvable (s.set p (c.get p)) with
        | false => rfl
        | true => exact absurd (unsolvable_not_solution hun hsolset) (by simp)
      refine ⟨c.get p, gbo_some_complete hgbo hd hnu, ?_⟩
      apply ih (s.set p (c.get p)) c
      · unfold Sudoku.WF
        rw [Sudoku.set_cells_length]
        exact hwf
      · have := Sudoku.emptyCount_set hp hemp hd0 hlen
        omega
      · exact hsolset

/-- The enumeration never yields the same board twice. -/
theorem solution_iterF_nodup :
    ∀ (fuel : Nat) (s : Sudoku), s.WF → (solution_iterF false fuel s).Nodup := by
  intro fuel
  induction fuel with
  | zero =>
    intro s _
    simp [solution_iterF]
  | succ n ih =>
    intro s hwf
    simp only [solution_iterF, Bool.false_eq_true, if_false]
    cases hgbo : get_best_options s with
    | none => simp
    | some fp =>
      obtain ⟨f, p⟩ := fp
      obtain ⟨hp, hemp, hfcase⟩ := gbo_some_spec hgbo
      have hlen : s.idx p < s.cells.length := by
        rw [hwf]
        exact Sudoku.idx_lt (Sudoku.mem_positions.mp hp).1 (Sudoku.mem_positions.mp hp).2
      have hfnd : f.Nodup := by
        rcases hfcase with hf | hf <;> rw [hf]
        · exact Sudoku.available_nodup s p
        · exact List.Nodup.filter _ (Sudoku.available_nodup s p)
      have hfsub : ∀ d ∈ f, d ∈ s.available p := by
        intro d hdf
        rcases hfcase with hf | hf
        · rw [hf] at hdf; exact hdf
        · rw [hf] at hdf; exact (List.mem_filter.mp hdf).1
      apply nodup_flatMap_key (fun c => c.get p) _ _ hfnd
      · intro d _
        apply ih
        unfold Sudoku.WF
        rw [Sudoku.set_cells_length]
        exact hwf
      · intro d hdf c hc
        have hshape := solution_iterF_shape n false (s.set p d) c hc
        have hd0 : d ≠ 0 := by
          have := (Sudoku.mem_available.mp (hfsub d hdf)).1
          omega
        have hsetget : (s.set p d).get p = d := Sudoku.get_set_self hlen d
        have := hshape.2.2 p hp (by rw [hsetget]; exact hd0)
        rw [this, hsetget]

/-- The first-solution search returns the head of the enumeration, fuel by
fuel. -/
theorem solutionF_eq_head :
    ∀ (fuel : Nat) (lock : Bool) (s : Sudoku),
      solutionF lock fuel s = (solution_iterF lock fuel s).head? := by
  intro fuel
  induction fuel with
  | zero => intro lock s; rfl
  | succ n ih =>
    intro lock s
    simp only [solutionF, solution_iterF]
    cases lock with
    | true => rfl
    | false =>
      simp only [Bool.false_eq_true, if_false]
      cases hgbo : get_best_options s with
      | none => rfl
      | some fp =>
        exact foldl_first_some_eq_head _ _ _ (fun d => rfl) (fun r d => rfl)
          (fun d => ih false (s.set fp.2 d)) fp.1.to_vec

/-- The contradiction search reports nothing at level 0. -/
theorem contradiction_zero (s : Sudoku) (lock : Bool) :
    contradiction s 0 lock = false := by
  unfold contradiction
  cases lock <;> rfl

/-- At level 1 the contradiction search is the direct unsolvability check. -/
theorem contradiction_one (s : Sudoku) :
    contradiction s 1 false = is_unsolvable s := by
  unfold contradiction
  rfl

/-- An aborted lock forces the contradiction search to `false`. -/
theorem contradiction_lock (s : Sudoku) (level : Nat) :
    contradiction s level true = false := by
  unfold contradiction
  rfl

/-- Unfolding of the recursive case of the contradiction search. -/
theorem contradiction_step_iff {s : Sudoku} {l : Nat} :
    contradiction s (l + 2) false = true ↔
      ∃ p ∈ s.positions, s.get p = 0 ∧ ∀ d ∈ s.available p,
        is_unsolvable (s.set p d) = true ∨
          contradiction (s.set p d) (l + 1) false = true := by
  conv_lhs => rw [contradiction]
  simp only [Bool.false_eq_true, if_false, List.any_eq_true, List.all_eq_true,
    Bool.or_eq_true]
  constructor
  · rintro ⟨fp, hfp, hall⟩
    rw [mem_sort_by_key] at hfp
    obtain ⟨p, hp, hemp, rfl⟩ := mem_gbo_options.mp hfp
    exact ⟨p, hp, hemp, hall⟩
  · rintro ⟨p, hp, hemp, hall⟩
    refine ⟨(s.available p, p), ?_, hall⟩
    rw [mem_sort_by_key]
    exact mem_gbo_options.mpr ⟨p, hp, hemp, rfl⟩

/-- A contradiction at levels two and up requires an empty cell. -/
theorem contradiction_two_le_has_empty {s : Sudoku} {lv : Nat} (h2 : 2 ≤ lv)
    (h : contradiction s lv false = true) :
    ∃ p ∈ s.positions, s.get p = 0 := by
  obtain ⟨l, rfl⟩ : ∃ l, lv = l + 2 := ⟨lv - 2, by omega⟩
  obtain ⟨p, hp, hemp, -⟩ := contradiction_step_iff.mp h
  exact ⟨p, hp, hemp⟩

/-- On a board with an empty cell, direct unsolvability implies the
contradiction search succeeds at every positive level. -/
theorem unsolvable_contradiction {s : Sudoku}
    (hempty : ∃ p ∈ s.positions, s.get p = 0)
    (hun : is_unsolvable s = true) :
    ∀ lv : Nat, 1 ≤ lv → contradiction s lv false = true := by
  intro lv h1
  match lv, h1 with
  | 1, _ => rw [contradiction_one]; exact hun
  | (l + 2), _ =>
    rw [contradiction_step_iff]
    obtain ⟨p, hp, hemp⟩ := hempty
    refine ⟨p, hp, hemp, ?_⟩
    intro d hd
    exact Or.inl (is_unsolvable_set_mono hp hemp hd hun)

/-- The contradiction search is monotone in the level on boards with an empty
cell. -/
theorem contradiction_succ_mono :
    ∀ (lv : Nat) (s : Sudoku), 1 ≤ lv → contradiction s lv false = true →
      (∃ p ∈ s.positions, s.get p = 0) →
      contradiction s (lv + 1) false = true := by
  intro lv
  induction lv using Nat.strong_induction_on with
  | _ lv ih =>
    intro s h1 hc hempty
    match lv, h1, hc with
    | 1, _, hc =>
      rw [contradiction_one] at hc
      exact unsolvable_contradiction hempty hc 2 (by omega)
    | (l + 2), _, hc =>
      rw [contradiction_step_iff] at hc
      obtain ⟨p, hp, hemp, hall⟩ := hc
      rw [show l + 2 + 1 = (l + 1) + 2 from rfl, contradiction_step_iff]
      refine ⟨p, hp, hemp, ?_⟩
      intro d hd
      rcases hall d hd with hun | hrec
      · exact Or.inl hun
      · cases l with
        | zero =>
          rw [contradiction_one] at hrec
          exact Or.inl hrec
        | succ m =>
          right
          apply ih (m + 2) (by omega) _ (by omega) hrec
          exact contradiction_two_le_has_empty (by omega) hrec

/-- Level monotonicity of the contradiction search from any positive level, on
boards with an empty cell. -/
theorem contradiction_mono_of_le {s : Sudoku} {i lv : Nat} (h1 : 1 ≤ i)
    (hle : i ≤ lv) (hc : contradiction s i false = true)
    (hempty : ∃ p ∈ s.positions, s.get p = 0) :
    contradiction s lv false = true := by
  induction lv, hle using Nat.le_induction with
  | base => exact hc
  | succ m hm ihm => exact contradiction_succ_mono m s (by omega) ihm hempty

/-- Invariant-carrying specification of the hint loop: any returned triple
names an empty cell, an available digit surviving all contradiction filters up
to the returned level, while every other available digit failed some filter. -/
theorem hint_go_spec :
    ∀ (k maxl level : Nat) (s : Sudoku) (options : List (List Nat × Pos)),
      level + k = maxl + 1 →
      (∀ e ∈ options, e.2 ∈ s.positions ∧ s.get e.2 = 0 ∧
        e.1 = (s.available e.2).filter
          (fun d => (List.range level).all
            (fun i => !contradiction (s.set e.2 d) i false))) →
      ∀ {d : Nat} {p : Pos} {l : Nat},
        hint_go s false k level options = some (d, p, l) →
        p ∈ s.positions ∧ s.get p = 0 ∧ d ∈ s.available p ∧ l ≤ maxl ∧
          (∀ i ≤ l, contradiction (s.set p d) i false = false) ∧
          ∀ d' ∈ s.available p, d' ≠ d → ∃ i, 1 ≤ i ∧ i ≤ l ∧
            contradiction (s.set p d') i false = true := by
  intro k
  induction k with
  | zero =>
    intro maxl level s options hk hinv d p l h
    simp only [hint_go] at h
    exact absurd h (by simp)
  | succ n ih =>
    intro maxl level s options hk hinv d p l h
    simp only [hint_go, Bool.false_eq_true, if_false] at h
    have hinv' : ∀ e ∈ options.map (fun pl =>
        (pl.1.filter (fun d => !contradiction (s.set pl.2 d) level false), pl.2)),
        e.2 ∈ s.positions ∧ s.get e.2 = 0 ∧
          e.1 = (s.available e.2).filter
            (fun d => (List.range (level + 1)).all
              (fun i => !contradiction (s.set e.2 d) i false)) := by
      intro e he
      obtain ⟨e0, he0, rfl⟩ := List.mem_map.mp he
      obtain ⟨hpos, hemp, heq⟩ := hinv e0 he0
      refine ⟨hpos, hemp, ?_⟩
      simp only
      rw [heq, List.filter_filter]
      apply List.filter_congr
      intro a _
      rw [List.range_succ, List.all_append]
      simp only [List.all_cons, List.all_nil, Bool.and_true]
      exact Bool.and_comm _ _
    cases hM : rust_min_by (fun pl => pl.1.length)
        (options.map (fun pl =>
          (pl.1.filter (fun d => !contradiction (s.set pl.2 d) level false), pl.2))) with
    | none =>
      rw [hM] at h
      exact absurd h (by simp)
    | some mp =>
      rw [hM] at h
      obtain ⟨moves, q⟩ := mp
      match moves, h with
      | [], h => exact absurd h (by simp)
      | [d0], h =>
        simp only [Option.some.injEq, Prod.mk.injEq] at h
        obtain ⟨rfl, rfl, rfl⟩ := h
        obtain ⟨hpos, hemp, heq⟩ := hinv' _ (rust_min_by_mem hM)
        simp only at hpos hemp heq
        have hdmem : d0 ∈ (s.available q).filter
            (fun d => (List.range (level + 1)).all
              (fun i => !contradiction (s.set q d) i false)) := by
          rw [← heq]
          exact List.mem_singleton_self d0
        obtain ⟨hdav, hdpass⟩ := List.mem_filter.mp hdmem
        rw [List.all_eq_true] at hdpass
        refine ⟨hpos, hemp, hdav, by omega, ?_, ?_⟩
        · intro i hi
          have := hdpass i (List.mem_range.mpr (by omega))
          simpa using this
        · intro d' hd' hne
          by_cases hpass : ((List.range (level + 1)).all
              (fun i => !contradiction (s.set q d') i false)) = true
          · exfalso
            have : d' ∈ (s.available q).filter
                (fun d => (List.range (level + 1)).all
                  (fun i => !contradiction (s.set q d) i false)) :=
              List.mem_filter.mpr ⟨hd', hpass⟩
            rw [← heq] at this
            exact hne (List.mem_singleton.mp this)
          · rw [List.all_eq_true] at hpass
            push_neg at hpass
            obtain ⟨i, hi, hci⟩ := hpass
            rw [List.mem_range] at hi
            have hci' : contradiction (s.set q d') i false = true := by
              cases hc : contradiction (s.set q d') i false
              · rw [hc] at hci; simp at hci
              · rfl
            have hi1 : 1 ≤ i := by
              rcases Nat.eq_zero_or_pos i with rfl | hpos'
              · rw [contradiction_zero] at hci'
                exact absurd hci' (by simp)
              · exact hpos'
            exact ⟨i, hi1, by omega, hci'⟩
      | (m1 :: m2 :: rest), h =>
        exact ih maxl (level + 1) s _ (by omega) hinv' h

/-- Top-level specification of `hint`. -/
theorem hint_spec {s : Sudoku} {maxl : Nat} {d : Nat} {p : Pos} {l : Nat}
    (h : hint s maxl false = some (d, p, l)) :
    p ∈ s.positions ∧ s.get p = 0 ∧ d ∈ s.available p ∧ l ≤ maxl ∧
      (∀ i ≤ l, contradiction (s.set p d) i false = false) ∧
      ∀ d' ∈ s.available p, d' ≠ d → ∃ i, 1 ≤ i ∧ i ≤ l ∧
        contradiction (s.set p d') i false = true := by
  unfold hint at h
  apply hint_go_spec (maxl + 1) maxl 0 s _ (by omega) _ h
  intro e he
  rw [mem_sort_by_key] at he
  obtain ⟨dp, hdp, rfl⟩ := List.mem_map.mp he
  obtain ⟨hdpi, hv0⟩ := List.mem_filter.mp hdp
  obtain ⟨r, hr, rfl⟩ := List.mem_map.mp hdpi
  refine ⟨hr, by simpa using hv0, ?_⟩
  simp only [List.range_zero, List.all_nil]
  rw [show ((s.available r).to_vec : List Nat) = s.available r from rfl]
  rw [List.filter_congr (fun a _ => rfl), List.filter_true]

/-- A solvable board is consistent and in range. -/
theorem consistent_of_solution {b c : Sudoku} (hsol : IsSolutionOf b c) :
    Consistent b ∧ InRange b := by
  obtain ⟨hbox, hlen, hfill, hvalid⟩ := hsol
  constructor
  · intro u hu p hp q hq hne h1 h2
    intro hgeq
    have hpv : p ∈ b.positions := Sudoku.unit_subset_positions hu hp
    have hqv : q ∈ b.positions := Sudoku.unit_subset_positions hu hq
    have hcp : c.get p = b.get p := hfill p hpv h1
    have hcq : c.get q = b.get q := hfill q hqv h2
    have huc : u ∈ c.all_units := by rw [Sudoku.all_units_congr hbox]; exact hu
    have hnd := validsolved_nodup hvalid huc
    rw [List.nodup_map_iff_inj_on (Sudoku.unit_nodup huc)] at hnd
    exact hne (hnd p hp q hq (by rw [hcp, hcq, hgeq]))
  · intro p hp h0
    have hcp : c.get p = b.get p := hfill p hp h0
    have hpc : p ∈ c.positions := by rw [Sudoku.positions_congr hbox]; exact hp
    have h2 : p.2 < c.board_size := (Sudoku.mem_positions.mp hpc).2
    have := validsolved_get_mem hvalid (Sudoku.row_unit_mem h2)
      (Sudoku.mem_row_positions.mpr ⟨rfl, (Sudoku.mem_positions.mp hpc).1⟩)
    rw [hcp, Sudoku.digitList_congr hbox] at this
    exact this

/-- C1: for every solvable well-formed board and a never-set token, `solution`
returns some fully solved board that differs from the input only at cells that
were empty in the input. -/
theorem c1_solution_complete (b : Sudoku) (hwf : b.WF)
    (hsolvable : ∃ c, IsSolutionOf b c) :
    ∃ S, solution b false = some S ∧ ValidSolved S ∧ FilledPreserved b S := by
  obtain ⟨c, hc⟩ := hsolvable
  have hmem : c ∈ solution_iter b false :=
    solution_iterF_complete (b.emptyCount + 1) b c hwf (by omega) hc
  have hhead : solution b false = (solution_iter b false).head? :=
    solutionF_eq_head _ _ _
  cases hS : (solution_iter b false).head? with
  | none =>
    rw [List.head?_eq_none_iff] at hS
    rw [hS] at hmem
    exact absurd hmem (List.not_mem_nil _)
  | some S =>
    have hSmem : S ∈ solution_iter b false :=
      List.mem_of_mem_head? (by rw [hS]; rfl)
    obtain ⟨hcons, hir⟩ := consistent_of_solution hc
    have hsound := solution_iterF_sound (b.emptyCount + 1) b S hwf hcons hir hSmem
    exact ⟨S, by rw [hhead, hS], hsound.2.2.2, hsound.2.2.1⟩

/-- Witness for C1 on the empty 1×1 board. -/
theorem c1_witness :
    (s1.WF ∧ IsSolutionOf s1 s1sol) ∧
      ∃ S, solution s1 false = some S ∧ ValidSolved S ∧ FilledPreserved s1 S :=
  ⟨⟨by decide, by decide⟩, c1_solution_complete s1 (by decide) ⟨s1sol, by decide⟩⟩

/-- C2: whenever `is_unsolvable` reports true, no completion of the board —
same shape, all filled cells kept, fully solved — exists. -/
theorem c2_unsolvable_sound (b : Sudoku) (h : is_unsolvable b = true) :
    ¬∃ c, IsSolutionOf b c := by
  rintro ⟨c, hc⟩
  exact unsolvable_not_solution h hc

/-- Witness for C2 on a board with a candidate-exhausted cell. -/
theorem c2_witness : is_unsolvable b2 = true ∧ ¬∃ c, IsSolutionOf b2 c :=
  ⟨by decide, c2_unsolvable_sound b2 (by decide)⟩

/-- C3 counterexample: from the inconsistent board `b7` the enumeration
yields `s7`, which is not a solution of `b7`, refuting the claimed set
equality for arbitrary boards. -/
theorem c3_counterexample :
    s7 ∈ solution_iter b7 false ∧ ¬IsSolutionOf b7 s7 := by
  constructor
  · decide
  · decide

/-- C3 (amended to consistent in-range well-formed inputs): the boards yielded
by `solution_iter` with a never-set token are exactly the solutions of the
input, without duplicates. -/
theorem c3_enumeration_correct (b : Sudoku) (hwf : b.WF) (hcons : Consistent b)
    (hir : InRange b) :
    (∀ c, c ∈ solution_iter b false ↔ IsSolutionOf b c) ∧
      (solution_iter b false).Nodup := by
  refine ⟨?_, solution_iterF_nodup _ b hwf⟩
  intro c
  constructor
  · exact solution_iterF_sound _ b c hwf hcons hir
  · exact solution_iterF_complete _ b c hwf (by omega)

/-- Witness for C3 on the empty 1×1 board. -/
theorem c3_witness :
    (s1.WF ∧ Consistent s1 ∧ InRange s1) ∧
      ((∀ c, c ∈ solution_iter s1 false ↔ IsSolutionOf s1 c) ∧
        (solution_iter s1 false).Nodup) :=
  ⟨⟨by decide, by decide, by decide⟩,
    c3_enumeration_correct s1 (by decide) (by decide) (by decide)⟩

/-- C5: semantics of the contradiction search at levels 0, 1 and ≥ 2 with a
never-set token. -/
theorem c5_contradiction_semantics (b : Sudoku) :
    contradiction b 0 false = false ∧
      contradiction b 1 false = is_unsolvable b ∧
      ∀ lv, 2 ≤ lv →
        (contradiction b lv false = true ↔
          ∃ p ∈ b.positions, b.get p = 0 ∧ ∀ d ∈ b.available p,
            is_unsolvable (b.set p d) = true ∨
              contradiction (b.set p d) (lv - 1) false = true) := by
  refine ⟨contradiction_zero b false, contradiction_one b, ?_⟩
  intro lv h2
  obtain ⟨l, rfl⟩ : ∃ l, lv = l + 2 := ⟨lv - 2, by omega⟩
  rw [show l + 2 - 1 = l + 1 from rfl]
  exact contradiction_step_iff

/-- Witness for C5 at level 2 on the empty 1×1 board. -/
theorem c5_witness :
    2 ≤ 2 ∧
      (contradiction s1 2 false = true ↔
        ∃ p ∈ s1.positions, s1.get p = 0 ∧ ∀ d ∈ s1.available p,
          is_unsolvable (s1.set p d) = true ∨
            contradiction (s1.set p d) (2 - 1) false = true) :=
  ⟨by decide, (c5_contradiction_semantics s1).2.2 2 (by decide)⟩

/-- C6: a token set before invocation yields the no-answer result of each of
the four operations, whatever the board. -/
theorem c6_cancellation (b : Sudoku) (level maxl : Nat) :
    solution b true = none ∧ solution_iter b true = [] ∧
      contradiction b level true = false ∧ hint b maxl true = none := by
  refine ⟨rfl, rfl, contradiction_lock b level, ?_⟩
  rfl

/-- C7 counterexample: the inconsistent board `b7` is not answered with
`none` — the search completes it to the invalid full board `s7`. -/
theorem c7_counterexample : ¬Consistent b7 ∧ solution b7 false = some s7 := by
  constructor
  · decide
  · decide

/-- C7 (amended): an inconsistent board is never reported solved — any board
`solution` returns for it keeps the inconsistency and so is not a valid
solved grid; the result is either `none` or such an invalid full board. -/
theorem c7_inconsistent_never_solved (b S : Sudoku)
    (h : solution b false = some S) (hinc : ¬Consistent b) : ¬ValidSolved S := by
  have hhead : solution b false = (solution_iter b false).head? :=
    solutionF_eq_head (b.emptyCount + 1) false b
  have hSmem : S ∈ solution_iter b false := by
    apply List.mem_of_mem_head?
    rw [show (solution_iter b false).head? = some S from by rw [← hhead]; exact h]
    rfl
  obtain ⟨hbox, hlen, hfill⟩ :=
    solution_iterF_shape (b.emptyCount + 1) false b S hSmem
  intro hvalid
  exact hinc (consistent_of_solution ⟨hbox, hlen, hfill, hvalid⟩).1

/-- Witness for the amended C7 on `b7`. -/
theorem c7_witness :
    (solution b7 false = some s7 ∧ ¬Consistent b7) ∧ ¬ValidSolved s7 :=
  ⟨⟨by decide, by decide⟩, c7_inconsistent_never_solved b7 s7 (by decide) (by decide)⟩

/-- C8: for every board and token state, `solution` is the head of the
`solution_iter` sequence, and is `none` exactly when that sequence is empty. -/
theorem c8_solution_head (b : Sudoku) (lock : Bool) :
    solution b lock = (solution_iter b lock).head? ∧
      (solution b lock = none ↔ solution_iter b lock = []) := by
  have h := solutionF_eq_head (b.emptyCount + 1) lock b
  refine ⟨h, ?_⟩
  rw [show solution b lock = (solution_iter b lock).head? from h,
    List.head?_eq_none_iff]

/-- C10: a returned hint names an empty cell of the input, one of its raw
available digits, and a level bounded by `max_level`. -/
theorem c10_hint_shape (b : Sudoku) (maxl d : Nat) (p : Pos) (l : Nat)
    (h : hint b maxl false = some (d, p, l)) :
    p ∈ b.positions ∧ b.get p = 0 ∧ d ∈ b.available p ∧ l ≤ maxl := by
  obtain ⟨hp, hemp, hd, hlm, -, -⟩ := hint_spec h
  exact ⟨hp, hemp, hd, hlm⟩

/-- Witness for C10 on `b4`. -/
theorem c10_witness :
    (hint b4 3 false = some (4, (0, 2), 0)) ∧
      ((0, 2) ∈ b4.positions ∧ b4.get (0, 2) = 0 ∧ 4 ∈ b4.available (0, 2) ∧
        0 ≤ 3) :=
  ⟨by decide, c10_hint_shape b4 3 4 (0, 2) 0 (by decide)⟩

/-- When some empty cell has at most one raw candidate, the branch selector
answers with a raw candidate set of minimal cardinality. -/
theorem gbo_raw_min {b : Sudoku} {f : Flags} {p : Pos}
    (hmin : ∃ q ∈ b.positions, b.get q = 0 ∧ (b.available q).length ≤ 1)
    (h : get_best_options b = some (f, p)) :
    f = b.available p ∧ ∀ q ∈ b.positions, b.get q = 0 →
      (b.available p).length ≤ (b.available q).length := by
  obtain ⟨q0, hq0, hq0e, hq0len⟩ := hmin
  unfold get_best_options at h
  cases hM : rust_min_by (fun fp => fp.1.size)
      ((b.iter.filter (fun dp => dp.1 == 0)).map
        (fun dp => (b.available dp.2, dp.2))) with
  | none => simp only [hM] at h; exact absurd h (by simp)
  | some fp0 =>
    simp only [hM] at h
    have hq0mem : (b.available q0, q0) ∈
        (b.iter.filter (fun dp => dp.1 == 0)).map
          (fun dp => (b.available dp.2, dp.2)) :=
      mem_gbo_options.mpr ⟨q0, hq0, hq0e, rfl⟩
    have hle0 := rust_min_by_le hM _ hq0mem
    have hsz : ¬fp0.1.size > 1 := by
      unfold Flags.size at hle0 ⊢
      simp only at hle0
      omega
    rw [if_neg hsz] at h
    rw [h] at hM
    obtain ⟨q, hq, hqe, heq⟩ := mem_gbo_options.mp (rust_min_by_mem hM)
    rw [Prod.mk.injEq] at heq
    obtain ⟨hfq, rfl⟩ := heq
    refine ⟨hfq, ?_⟩
    intro r hr hre
    have := rust_min_by_le hM _ (mem_gbo_options.mpr ⟨r, hr, hre, rfl⟩)
    unfold Flags.size at this
    simp only at this
    rw [hfq] at this
    exact this

/-- When every empty cell has at least two raw candidates, the branch
selector answers with a forward-checked candidate set of minimal cardinality
among the forward-checked sets. -/
theorem gbo_refined_min {b : Sudoku} {f : Flags} {p : Pos}
    (hmin : ∀ q ∈ b.positions, b.get q = 0 → 1 < (b.available q).length)
    (h : get_best_options b = some (f, p)) :
    f = (b.available p).filter (fun e => !is_unsolvable (b.set p e)) ∧
      ∀ q ∈ b.positions, b.get q = 0 →
        ((b.available p).filter (fun e => !is_unsolvable (b.set p e))).length ≤
          ((b.available q).filter (fun e => !is_unsolvable (b.set q e))).length := by
  unfold get_best_options at h
  cases hM : rust_min_by (fun fp => fp.1.size)
      ((b.iter.filter (fun dp => dp.1 == 0)).map
        (fun dp => (b.available dp.2, dp.2))) with
  | none => simp only [hM] at h; exact absurd h (by simp)
  | some fp0 =>
    simp only [hM] at h
    obtain ⟨q0, hq0, hq0e, hfp0⟩ := mem_gbo_options.mp (rust_min_by_mem hM)
    have hsz : fp0.1.size > 1 := by
      rw [hfp0]
      unfold Flags.size
      simp only
      exact hmin q0 hq0 hq0e
    rw [if_pos hsz] at h
    obtain ⟨gq, hgq, hgqeq⟩ := List.mem_map.mp (rust_min_by_mem h)
    obtain ⟨q, hq, hqe, rfl⟩ := mem_gbo_options.mp hgq
    simp only [Prod.mk.injEq] at hgqeq
    obtain ⟨hf, rfl⟩ := hgqeq
    constructor
    · exact hf.symm
    · intro r hr hre
      have hmem : ((Flags.from_vec
            (((b.available r).to_vec).filter (fun e => !is_unsolvable (b.set r e)))),
            r) ∈
          ((b.iter.filter (fun dp => dp.1 == 0)).map
            (fun dp => (b.available dp.2, dp.2))).map
            (fun fp => (Flags.from_vec ((fp.1.to_vec).filter
              (fun d => !is_unsolvable (b.set fp.2 d))), fp.2)) :=
        List.mem_map.mpr ⟨(b.available r, r), mem_gbo_options.mpr ⟨r, hr, hre, rfl⟩, rfl⟩
      have hle := rust_min_by_le h _ hmem
      unfold Flags.size at hle
      simp only at hle
      rw [← hf] at hle
      exact hle

/-- C9: the branch selector returns `none` exactly on full boards; otherwise
it returns an empty cell with, when some cell has at most one raw candidate,
a raw candidate set of minimal cardinality, and when every cell has more,
a forward-checked candidate set of minimal refined cardinality. -/
theorem c9_branch_selector (b : Sudoku) :
    (get_best_options b = none ↔ ∀ p ∈ b.positions, b.get p ≠ 0) ∧
      ∀ f p, get_best_options b = some (f, p) →
        p ∈ b.positions ∧ b.get p = 0 ∧
          ((∃ q ∈ b.positions, b.get q = 0 ∧ (b.available q).length ≤ 1) →
            f = b.available p ∧ ∀ q ∈ b.positions, b.get q = 0 →
              (b.available p).length ≤ (b.available q).length) ∧
          ((∀ q ∈ b.positions, b.get q = 0 → 1 < (b.available q).length) →
            f = (b.available p).filter (fun e => !is_unsolvable (b.set p e)) ∧
              ∀ q ∈ b.positions, b.get q = 0 →
                ((b.available p).filter (fun e => !is_unsolvable (b.set p e))).length ≤
                  ((b.available q).filter (fun e => !is_unsolvable (b.set q e))).length) := by
  refine ⟨gbo_none_iff, ?_⟩
  intro f p h
  obtain ⟨hp, hemp, -⟩ := gbo_some_spec h
  exact ⟨hp, hemp, fun hmin => gbo_raw_min hmin h, fun hmin => gbo_refined_min hmin h⟩

/-- Witness for C9 on `b4`, whose first minimal cell is a raw singleton. -/
theorem c9_witness :
    (get_best_options b4 = some ([4], (0, 2))) ∧
      ((0, 2) ∈ b4.positions ∧ b4.get (0, 2) = 0 ∧
        ((∃ q ∈ b4.positions, b4.get q = 0 ∧ (b4.available q).length ≤ 1) →
          [4] = b4.available (0, 2) ∧ ∀ q ∈ b4.positions, b4.get q = 0 →
            (b4.available (0, 2)).length ≤ (b4.available q).length) ∧
        ((∀ q ∈ b4.positions, b4.get q = 0 → 1 < (b4.available q).length) →
          [4] = (b4.available (0, 2)).filter
              (fun e => !is_unsolvable (b4.set (0, 2) e)) ∧
            ∀ q ∈ b4.positions, b4.get q = 0 →
              ((b4.available (0, 2)).filter
                  (fun e => !is_unsolvable (b4.set (0, 2) e))).length ≤
                ((b4.available q).filter
                  (fun e => !is_unsolvable (b4.set q e))).length)) :=
  ⟨by decide, (c9_branch_selector b4).2 [4] (0, 2) (by decide)⟩

/-- C4 counterexample: on `b4` the hint deducer returns the move (4, (0,2))
at level 0, yet that placement makes the board directly unsolvable. -/
theorem c4_counterexample :
    hint b4 3 false = some (4, (0, 2), 0) ∧
      is_unsolvable (b4.set (0, 2) 4) = true := by
  constructor
  · decide
  · decide

/-- C4 (amended): a returned hint of level ≥ 1 places a digit that does not
make the board unsolvable (a level-0 hint may), and every other raw candidate
at the hinted cell yields a contradiction at the returned level. -/
theorem c4_hint_validity (b : Sudoku) (maxl d : Nat) (p : Pos) (l : Nat)
    (h : hint b maxl false = some (d, p, l)) :
    (1 ≤ l → is_unsolvable (b.set p d) = false) ∧
      ∀ d' ∈ b.available p, d' ≠ d → contradiction (b.set p d') l false = true := by
  obtain ⟨hp, hemp, hd, hlmax, hpass, hfail⟩ := hint_spec h
  have hconj1 : 1 ≤ l → is_unsolvable (b.set p d) = false := by
    intro h1
    have := hpass 1 h1
    rwa [contradiction_one] at this
  refine ⟨hconj1, ?_⟩
  intro d' hd' hne
  obtain ⟨i, hi1, hil, hci⟩ := hfail d' hd' hne
  by_cases hempty : ∃ q ∈ (b.set p d').positions, (b.set p d').get q = 0
  · exact contradiction_mono_of_le hi1 hil hci hempty
  · push_neg at hempty
    have hi_eq : i = 1 := by
      by_contra hne1
      obtain ⟨q, hq, hqe⟩ := contradiction_two_le_has_empty (by omega) hci
      exact (hempty q hq) hqe
    subst hi_eq
    rw [contradiction_one] at hci
    exfalso
    have hlen : b.idx p < b.cells.length := by
      by_contra hge
      have hob : b.set p d' = b := Sudoku.set_oob _ (by omega)
      have h0 := hempty p hp
      rw [hob] at h0
      exact h0 hemp
    have hd'1 : d' ≠ 0 := by
      have := (Sudoku.mem_available.mp hd').1
      omega
    have hd1 : d ≠ 0 := by
      have := (Sudoku.mem_available.mp hd).1
      omega
    have hnud : is_unsolvable (b.set p d) = false := hconj1 (by omega)
    have hfulld : ∀ q ∈ (b.set p d).positions, (b.set p d).get q ≠ 0 := by
      intro q hq
      by_cases hqp : q = p
      · subst hqp
        rw [Sudoku.get_set_self hlen d]
        exact hd1
      · rw [Sudoku.get_set_ne_pos d hp hq hqp]
        have := hempty q hq
        rwa [Sudoku.get_set_ne_pos d' hp hq hqp] at this
    have hpaird := (is_unsolvable_full_iff hfulld).mp hnud
    have hpaird' : ∀ u ∈ (b.set p d').all_units, ∀ q1 ∈ u, ∀ q2 ∈ u,
        q1 ≠ q2 → (b.set p d').get q1 ≠ (b.set p d').get q2 := by
      intro u hu q1 hq1 q2 hq2 hne12
      have hu' : u ∈ b.all_units := hu
      have hv1 : q1 ∈ b.positions := Sudoku.unit_subset_positions hu' hq1
      have hv2 : q2 ∈ b.positions := Sudoku.unit_subset_positions hu' hq2
      have havd' := (Sudoku.mem_available.mp hd').2.2
      by_cases e1 : q1 = p <;> by_cases e2 : q2 = p
      · exact absurd (e1.trans e2.symm) hne12
      · subst e1
        rw [Sudoku.get_set_self hlen d', Sudoku.get_set_ne_pos d' hp hv2 e2]
        intro hdq
        exact havd' q2 (Sudoku.mem_scan_of_shared_unit hu' hq1 hq2) hdq.symm
      · subst e2
        rw [Sudoku.get_set_self hlen d', Sudoku.get_set_ne_pos d' hp hv1 e1]
        intro hdq
        exact havd' q1 (Sudoku.mem_scan_of_shared_unit hu' hq2 hq1) hdq
      · rw [Sudoku.get_set_ne_pos d' hp hv1 e1, Sudoku.get_set_ne_pos d' hp hv2 e2]
        have h1d := hpaird u hu' q1 hq1 q2 hq2 hne12
        rwa [Sudoku.get_set_ne_pos d hp hv1 e1, Sudoku.get_set_ne_pos d hp hv2 e2] at h1d
    have hcontra := (is_unsolvable_full_iff hempty).mpr hpaird'
    rw [hcontra] at hci
    exact absurd hci (by simp)

/-- Witness for the amended C4 on `b4`. -/
theorem c4_witness :
    (hint b4 3 false = some (4, (0, 2), 0)) ∧
      ((1 ≤ 0 → is_unsolvable (b4.set (0, 2) 4) = false) ∧
        ∀ d' ∈ b4.available (0, 2), d' ≠ 4 →
          contradiction (b4.set (0, 2) d') 0 false = true) :=
  ⟨by decide, c4_hint_validity b4 3 4 (0, 2) 0 (by decide)⟩
